import Mathlib

/-!
# Echelon status nodes (`echelon/node/echelone_node.go`)

A shallow embedding of the Go package `node`: the `EchelonNode` record, its
mutation operations, the running/completed discriminant, duration formatting
and the recursive `Draw` rendering.

Conventions of the embedding

* Every method body runs under the node's own lock, so each operation is one
  atomic state transformer `EchelonNode → …`.
* `time.Now()` is an input: operations that read the clock take the reading as
  an argument; `Draw`, which reads the clock once per running node it visits,
  threads a read counter through a clock oracle `Nat → Time`.
* A Go run-time panic (slice bounds, negative `WaitGroup` counter) is an explicit
  outcome that carries the node as the panicking statement left it.
* `children` holds pointers in Go; a node value here is the heap snapshot
  unfolded into a finite tree.
* Lock scopes are a second view of the same methods: the `Lock`/`RLock` and
  `Unlock`/`RUnlock` calls one method call makes, as a list in program order.
* `float64` values are exact dyadic rationals with round-to-nearest-even, which is
  what `Seconds()`, `Minutes()`, `Hours()` and the verb `%.1f` compute.
-/

set_option autoImplicit false

namespace Echelon

/-! ## The `time` package: instants and durations -/

/-- A Go `time.Time`: the wall clock reading in nanoseconds since the Unix epoch and,
when the value came from `time.Now()`, the monotonic clock reading in nanoseconds. -/
structure Time where
  wall : Int
  mono : Option Int
deriving DecidableEq, Repr

/-- Go `time.Duration` is an `int64` count of nanoseconds. -/
abbrev Duration := Int

def Millisecond : Duration := 1000000
def Second : Duration := 1000000000
def Minute : Duration := 60 * Second
def Hour : Duration := 60 * Minute

def minDuration : Duration := -9223372036854775808
def maxDuration : Duration := 9223372036854775807

/-- Two's complement wrap-around of `int64` arithmetic. -/
def wrapInt64 (x : Int) : Int := (x + 9223372036854775808) % 18446744073709551616 - 9223372036854775808

/-- Go `time.Now()`, given the readings of the wall clock and of the monotonic clock
(nanoseconds since process start, a non-negative `int64`). -/
def Time.Now (wall mono : Int) : Time := ⟨wall, some mono⟩

/-- Go `time.Unix(sec, nsec)`: a wall clock instant without monotonic reading. -/
def Time.Unix (sec nsec : Int) : Time := ⟨sec * 1000000000 + nsec, none⟩

/-- Go `Time.Before`: monotonic readings are compared when both instants carry one,
the wall clock readings otherwise. -/
def Time.Before (t u : Time) : Bool :=
  match t.mono, u.mono with
  | some a, some b => decide (a < b)
  | _, _ => decide (t.wall < u.wall)

/-- Go `time.subMono`: the `int64` difference of two monotonic readings, saturated. -/
def subMono (t u : Int) : Duration :=
  let d := wrapInt64 (t - u)
  if d < 0 ∧ t > u then maxDuration
  else if d > 0 ∧ t < u then minDuration
  else d

/-- Go `Time.Sub`: `t - u`, on the monotonic clock when both instants carry a reading,
on the wall clock otherwise, saturated to the range of `Duration`. -/
def Time.Sub (t u : Time) : Duration :=
  match t.mono, u.mono with
  | some a, some b => subMono a b
  | _, _ =>
    let d := wrapInt64 (t.wall - u.wall)
    if u.wall + d = t.wall then d
    else if t.wall < u.wall then minDuration
    else maxDuration

/-! ## The node record -/

/-- The struct `EchelonNode`. `done` is the counter of the `sync.WaitGroup`; the
`sync.RWMutex` carries no data and is left out. -/
inductive EchelonNode where
  | mk (done : Int) (title : String) (titleColor : Int) (description : List String)
      (maxDescriptionLines : Int) (startTime : Time) (endTime : Time)
      (children : List EchelonNode)

namespace EchelonNode

def done : EchelonNode → Int
  | mk d _ _ _ _ _ _ _ => d
def title : EchelonNode → String
  | mk _ t _ _ _ _ _ _ => t
def titleColor : EchelonNode → Int
  | mk _ _ c _ _ _ _ _ => c
def description : EchelonNode → List String
  | mk _ _ _ ds _ _ _ _ => ds
def maxDescriptionLines : EchelonNode → Int
  | mk _ _ _ _ m _ _ _ => m
def startTime : EchelonNode → Time
  | mk _ _ _ _ _ s _ _ => s
def endTime : EchelonNode → Time
  | mk _ _ _ _ _ _ e _ => e
def children : EchelonNode → List EchelonNode
  | mk _ _ _ _ _ _ _ cs => cs

end EchelonNode

/-- The run-time panics the package can raise. -/
inductive Panic where
  | sliceBoundsOutOfRange
  | negativeWaitGroupCounter
deriving DecidableEq, Repr

/-- Result of a method call: normal return, or a panic; both carry the node state
the call left behind. -/
inductive Outcome where
  | ok (node : EchelonNode)
  | panicked (p : Panic) (node : EchelonNode)

/-- The node state after the call, whether it returned or panicked. -/
def Outcome.node : Outcome → EchelonNode
  | .ok n => n
  | .panicked _ n => n

/-- Whether the call returned normally. -/
def Outcome.returned : Outcome → Bool
  | .ok _ => true
  | .panicked _ _ => false

/-! ## Construction and mutation -/

/-- `StartNewEchelonNode(title)`, with `now` the reading of `time.Now()`. -/
def StartNewEchelonNode (now : Time) (title : String) : EchelonNode :=
  .mk 1 title (-1) [] 5 now (Time.Unix 0 0) []

/-- `node.UpdateTitle(text)`. -/
def UpdateTitle (text : String) : EchelonNode → EchelonNode
  | .mk d _ c ds m s e cs => .mk d text c ds m s e cs

/-- `node.SetDescription(description)`. -/
def SetDescription (description : List String) : EchelonNode → EchelonNode
  | .mk d t c _ m s e cs => .mk d t c description m s e cs

/-- `node.ClearDescription()`. -/
def ClearDescription (node : EchelonNode) : EchelonNode :=
  SetDescription [] node

/-- The Go slice expression `s[low:]`: it panics unless `0 ≤ low ≤ len(s)`. -/
def sliceFrom {α : Type} (s : List α) (low : Int) : Option (List α) :=
  if 0 ≤ low ∧ low ≤ (s.length : Int) then some (s.drop low.toNat) else none

/-- `node.AppendDescription(text)`. -/
def AppendDescription (text : String) : EchelonNode → Outcome
  | .mk d t c ds m s e cs =>
    let appended := ds ++ [text]
    let linesTotal : Int := appended.length
    if linesTotal > m then
      match sliceFrom appended (linesTotal - m) with
      | some kept => .ok (.mk d t c kept m s e cs)
      | none => .panicked .sliceBoundsOutOfRange (.mk d t c appended m s e cs)
    else .ok (.mk d t c appended m s e cs)

/-- `node.AddNewChild(child)`. -/
def AddNewChild (child : EchelonNode) : EchelonNode → EchelonNode
  | .mk d t c ds m s e cs => .mk d t c ds m s e (cs ++ [child])

/-- `node.CompleteWithColor(ansiColor)`, with `now` the reading of `time.Now()`.
The fields are written under the lock; `done.Done()` then decrements the counter and
panics when it becomes negative. -/
def CompleteWithColor (now : Time) (ansiColor : Int) : EchelonNode → Outcome
  | .mk d t _ ds m s _ cs =>
    let counter := d - 1
    if counter < 0 then .panicked .negativeWaitGroupCounter (.mk counter t ansiColor ds m s now cs)
    else .ok (.mk counter t ansiColor ds m s now cs)

/-- `node.Complete()`. -/
def Complete (now : Time) (node : EchelonNode) : Outcome :=
  CompleteWithColor now (-1) node

/-! ## Running state and duration -/

/-- `node.IsRunning()`. -/
def IsRunning (node : EchelonNode) : Bool :=
  node.endTime.Before node.startTime

/-- `node.ExecutionDuration()`; `now` is what `time.Now()` returns if the running
branch reads the clock. -/
def ExecutionDuration (now : Time) (node : EchelonNode) : Duration :=
  if IsRunning node then now.Sub node.startTime
  else node.endTime.Sub node.startTime

/-! ## Floating point: the `float64` values the formatter computes -/

/-- A finite `float64` value, held exactly as the dyadic rational `num / 2 ^ exp`. -/
structure F64 where
  num : Int
  exp : Nat
deriving DecidableEq, Repr

/-- Quotient `n / d` rounded to the nearest integer, ties to the even one. -/
def roundHalfEven (n d : Nat) : Nat :=
  let q := n / d
  let r := n % d
  if 2 * r < d then q
  else if d < 2 * r then q + 1
  else if q % 2 = 0 then q
  else q + 1

/-- Search for the least `k`, starting at `k` and trying `fuel` candidates, with
`2 ^ 52 ≤ n * 2 ^ k / d`, the scaling that leaves a 53-bit significand. -/
def binExpFrom (n d : Nat) : Nat → Nat → Nat
  | 0, k => k
  | fuel + 1, k => if d * 2 ^ 52 ≤ n * 2 ^ k then k else binExpFrom n d fuel (k + 1)

/-- The `float64` nearest to the rational `n / d` (round to nearest, ties to even), for
`|n / d| < 2 ^ 53` in the normal range. -/
def F64.round (n : Int) (d : Nat) : F64 :=
  if n = 0 then ⟨0, 0⟩
  else
    let k := binExpFrom n.natAbs d 1074 0
    ⟨Int.sign n * (roundHalfEven (n.natAbs * 2 ^ k) d : Int), k⟩

/-- The conversion `float64(i)`, exact for `|i| < 2 ^ 53`. -/
def F64.ofInt (i : Int) : F64 := ⟨i, 0⟩

/-- The `float64` quotient `a / b`. -/
def F64.div (a b : F64) : F64 :=
  F64.round (a.num * Int.sign b.num * 2 ^ b.exp) (b.num.natAbs * 2 ^ a.exp)

/-- The `float64` sum `a + b`. -/
def F64.add (a b : F64) : F64 :=
  F64.round (a.num * 2 ^ b.exp + b.num * 2 ^ a.exp) (2 ^ (a.exp + b.exp))

/-- The conversion `int(math.Floor(x))`. -/
def F64.floor (x : F64) : Int := Int.fdiv x.num (2 ^ x.exp)

/-- `d.Milliseconds()`: integer division, truncated toward zero. -/
def Duration.Milliseconds (d : Duration) : Int := Int.tdiv d 1000000

/-- `d.Seconds()`. -/
def Duration.Seconds (d : Duration) : F64 :=
  F64.add (F64.ofInt (Int.tdiv d Second)) (F64.div (F64.ofInt (Int.tmod d Second)) (F64.ofInt 1000000000))

/-- `d.Minutes()`. -/
def Duration.Minutes (d : Duration) : F64 :=
  F64.add (F64.ofInt (Int.tdiv d Minute)) (F64.div (F64.ofInt (Int.tmod d Minute)) (F64.ofInt 60000000000))

/-- `d.Hours()`. -/
def Duration.Hours (d : Duration) : F64 :=
  F64.add (F64.ofInt (Int.tdiv d Hour)) (F64.div (F64.ofInt (Int.tmod d Hour)) (F64.ofInt 3600000000000))

/-! ## The `fmt` verbs in use -/

/-- The verb `%d`. -/
def fmtD (n : Int) : String := toString n

/-- The verb `%02d`: decimal, padded with zeros to width two. -/
def fmtD02 (n : Int) : String :=
  if 0 ≤ n ∧ n < 10 then "0" ++ toString n else toString n

/-- Tenths of `|x|`, the exact binary value rounded to one decimal, ties to even. -/
def F64.tenths (x : F64) : Nat := roundHalfEven (10 * x.num.natAbs) (2 ^ x.exp)

/-- The verb `%.1f`. -/
def fmtF1 (x : F64) : String :=
  (if x.num < 0 then "-" else "") ++ toString (x.tenths / 10) ++ "." ++ toString (x.tenths % 10)

/-- Reset ANSI sequence. -/
def resetSequence : String := "\x1b[0m"

/-- `getColorSequence(code)`. -/
def getColorSequence (code : Int) : String :=
  if code < 0 then resetSequence else "\x1b[3" ++ fmtD code ++ "m"

/-- `formatDuration(duration)`. -/
def formatDuration (duration : Duration) : String :=
  if duration < 10 * Second then
    fmtF1 (F64.div (F64.ofInt duration.Milliseconds) (F64.ofInt 1000)) ++ "s"
  else if duration < Minute then
    fmtD duration.Seconds.floor ++ "s"
  else if duration < Hour then
    fmtD02 duration.Minutes.floor ++ ":" ++ fmtD02 duration.Seconds.floor
  else
    fmtD02 duration.Hours.floor ++ ":" ++ fmtD02 duration.Minutes.floor ++ ":" ++ fmtD02 duration.Seconds.floor

/-! ## Rendering -/

/-- `node.fancyTitle()`; `now` is the clock reading `ExecutionDuration` takes when the
node is running. -/
def fancyTitle (now : Time) (node : EchelonNode) : String :=
  let marker := if IsRunning node then "[-]" else "[+]"
  let coloredTitle := getColorSequence node.titleColor ++ node.title ++ resetSequence
  marker ++ " " ++ coloredTitle ++ " " ++ formatDuration (ExecutionDuration now node)

/-- The clock read counter after `fancyTitle`: a running node reads the clock once, a
completed node does not read it. -/
def tick (node : EchelonNode) (i : Nat) : Nat :=
  if IsRunning node then i + 1 else i

/-- Two spaces in front of a line. -/
def indent (line : String) : String := "  " ++ line

mutual
/-- `node.Draw()`. The `i`-th call of `time.Now()` returns `clock i`; the result pairs
the lines with the number of clock reads made so far. -/
def Draw (clock : Nat → Time) : EchelonNode → Nat → List String × Nat
  | .mk d t c ds m s e cs, i =>
    let title := fancyTitle (clock i) (.mk d t c ds m s e cs)
    let i1 := tick (.mk d t c ds m s e cs) i
    if cs.length > 0 then
      let sub := DrawChildren clock cs i1
      (title :: sub.1, sub.2)
    else
      (title :: ds.map indent, i1)
/-- The loop over `node.children` inside `Draw`: each child is drawn in turn and its
lines are appended with two more spaces in front. -/
def DrawChildren (clock : Nat → Time) : List EchelonNode → Nat → List String × Nat
  | [], i => ([], i)
  | child :: rest, i =>
    let out := Draw clock child i
    let sub := DrawChildren clock rest out.2
    (out.1.map indent ++ sub.1, sub.2)
end

/-- The outputs of `Draw` on each node of a list, drawn one after the other from clock
read `i` on. -/
def drawEach (clock : Nat → Time) : List EchelonNode → Nat → List (List String)
  | [], _ => []
  | child :: rest, i => (Draw clock child i).1 :: drawEach clock rest (Draw clock child i).2

/-! ## Sequences of operations -/

/-- One call of a mutating method, with its arguments and, for the completion calls,
the clock reading it takes. -/
inductive Op where
  | UpdateTitle (text : String)
  | SetDescription (description : List String)
  | ClearDescription
  | AppendDescription (text : String)
  | AddNewChild (child : EchelonNode)
  | Complete (now : Time)
  | CompleteWithColor (now : Time) (ansiColor : Int)

/-- Whether the call is `Complete` or `CompleteWithColor`. -/
def Op.isCompletion : Op → Bool
  | .Complete _ => true
  | .CompleteWithColor _ _ => true
  | _ => false

/-- Run one method call. -/
def Op.run : Op → EchelonNode → Outcome
  | .UpdateTitle text, node => .ok (Echelon.UpdateTitle text node)
  | .SetDescription ds, node => .ok (Echelon.SetDescription ds node)
  | .ClearDescription, node => .ok (Echelon.ClearDescription node)
  | .AppendDescription text, node => Echelon.AppendDescription text node
  | .AddNewChild child, node => .ok (Echelon.AddNewChild child node)
  | .Complete now, node => Echelon.Complete now node
  | .CompleteWithColor now c, node => Echelon.CompleteWithColor now c node

/-- Run a sequence of method calls in order; a panic ends the run. -/
def runOps : List Op → EchelonNode → Outcome
  | [], node => .ok node
  | op :: ops, node =>
    match op.run node with
    | .ok node1 => runOps ops node1
    | .panicked p node1 => .panicked p node1

/-- The clock reading a completion call takes. -/
def Op.completionTime : Op → Option Time
  | .Complete now => some now
  | .CompleteWithColor now _ => some now
  | _ => none

/-! ## The completion signal -/

/-- `node.Wait()` is `node.done.Wait()`: it returns when the counter of the `WaitGroup`
is zero and blocks while the counter is positive. -/
def WaitReturns (node : EchelonNode) : Bool :=
  decide (node.done = 0)

/-! ## Trees: size, depth, indentation -/

/-- A string of `n` spaces. -/
def spaces (n : Nat) : String := String.mk (List.replicate n ' ')

mutual
/-- Number of nodes of the tree below and including `node`. -/
def countNodes : EchelonNode → Nat
  | .mk _ _ _ _ _ _ _ cs => 1 + countNodesList cs
/-- Number of nodes of a list of trees. -/
def countNodesList : List EchelonNode → Nat
  | [] => 0
  | child :: rest => countNodes child + countNodesList rest
end

mutual
/-- Sum of the description lengths of the leaves of the tree at `node`. -/
def leafLines : EchelonNode → Nat
  | .mk _ _ _ ds _ _ _ cs =>
    match cs with
    | [] => ds.length
    | child :: rest => leafLinesList (child :: rest)
/-- Sum of the description lengths of the leaves of a list of trees. -/
def leafLinesList : List EchelonNode → Nat
  | [] => 0
  | child :: rest => leafLines child + leafLinesList rest
end

/-- The descendant reached from `node` by following child positions; its depth below
`node` is the length of the path. -/
def nodeAt : EchelonNode → List Nat → Option EchelonNode
  | node, [] => some node
  | node, k :: path =>
    match node.children[k]? with
    | some child => nodeAt child path
    | none => none

/-! ## Lock events

The lock and unlock calls a method makes, in program order; a deferred unlock runs when
the method returns. A node is named by the child positions leading to it from the node
the outermost call was made on. -/

/-- The name of a node: the child positions on the way to it. -/
abbrev NodeId := List Nat

/-- One call on the `sync.RWMutex` of a node. -/
inductive LockEvent where
  | RLock (id : NodeId)
  | RUnlock (id : NodeId)
  | Lock (id : NodeId)
  | Unlock (id : NodeId)
deriving DecidableEq, Repr

/-- The node whose mutex the call is made on. -/
def LockEvent.node : LockEvent → NodeId
  | .RLock id => id
  | .RUnlock id => id
  | .Lock id => id
  | .Unlock id => id

/-- Whether the call concerns the read side of the mutex. -/
def LockEvent.isRead : LockEvent → Bool
  | .RLock _ => true
  | .RUnlock _ => true
  | .Lock _ => false
  | .Unlock _ => false

/-- The locks held after one more call: an acquisition adds a hold on the node, a release
drops one hold on it. -/
def holdStep (held : List NodeId) : LockEvent → List NodeId
  | .RLock id => id :: held
  | .Lock id => id :: held
  | .RUnlock id => held.erase id
  | .Unlock id => held.erase id

/-- The locks held after a sequence of calls. -/
def heldAfter (held : List NodeId) (trace : List LockEvent) : List NodeId :=
  trace.foldl holdStep held

/-- The locks held after each call of a sequence, in order. -/
def heldStates (held : List NodeId) : List LockEvent → List (List NodeId)
  | [] => []
  | e :: rest => holdStep held e :: heldStates (holdStep held e) rest

/-- Whether at some moment of the sequence the locks of two different nodes are held. -/
def holdsTwoNodes (trace : List LockEvent) : Bool :=
  (heldStates [] trace).any (fun held => held.any (fun a => held.any (fun b => a != b)))

/-- The held locks lie on one path of the tree: of any two of their nodes, one is an
ancestor of the other (or they are the same node). -/
def onOnePath (held : List NodeId) : Prop :=
  ∀ a ∈ held, ∀ b ∈ held, a <+: b ∨ b <+: a

/-- Lock calls of `IsRunning`. -/
def IsRunningLocks (id : NodeId) : List LockEvent :=
  [.RLock id, .RUnlock id]

/-- Lock calls of `ExecutionDuration`: `IsRunning` is called under the read lock. -/
def ExecutionDurationLocks (id : NodeId) : List LockEvent :=
  [.RLock id] ++ IsRunningLocks id ++ [.RUnlock id]

/-- Lock calls of `fancyTitle`: `IsRunning` and `ExecutionDuration` are called under the
read lock. -/
def fancyTitleLocks (id : NodeId) : List LockEvent :=
  [.RLock id] ++ IsRunningLocks id ++ ExecutionDurationLocks id ++ [.RUnlock id]

/-- Lock calls of a mutating method on the node `id`: `UpdateTitle`, `SetDescription`
(also through `ClearDescription`), `AppendDescription`, `AddNewChild` and
`CompleteWithColor` (also through `Complete`) each lock and unlock the node once. -/
def Op.locks (_op : Op) (id : NodeId) : List LockEvent :=
  [.Lock id, .Unlock id]

mutual
/-- Lock calls of `Draw` on the node `id`: the read lock is taken first and released by
the deferred `RUnlock` after the loop over the children. -/
def DrawLocks : EchelonNode → NodeId → List LockEvent
  | .mk _ _ _ _ _ _ _ cs, id =>
    [.RLock id] ++ fancyTitleLocks id ++ DrawChildrenLocks cs id 0 ++ [.RUnlock id]
/-- Lock calls of the loop over the children, the first of which has position `k`. -/
def DrawChildrenLocks : List EchelonNode → NodeId → Nat → List LockEvent
  | [], _, _ => []
  | child :: rest, id, k => DrawLocks child (id ++ [k]) ++ DrawChildrenLocks rest id (k + 1)
end

/-- The calls `node.AppendDescription(l)` for each `l` of `lines`, in order. -/
def appendAll (lines : List String) (node : EchelonNode) : Outcome :=
  runOps (lines.map Op.AppendDescription) node

/-- The last `k` elements of a list. -/
def lastN {α : Type} (k : Nat) (l : List α) : List α :=
  l.drop (l.length - k)

end Echelon

namespace Echelon

/-! ## Field lemmas -/

@[simp] theorem StartNewEchelonNode_description (now : Time) (title : String) :
    (StartNewEchelonNode now title).description = [] := rfl

@[simp] theorem StartNewEchelonNode_maxDescriptionLines (now : Time) (title : String) :
    (StartNewEchelonNode now title).maxDescriptionLines = 5 := rfl

@[simp] theorem StartNewEchelonNode_startTime (now : Time) (title : String) :
    (StartNewEchelonNode now title).startTime = now := rfl

@[simp] theorem StartNewEchelonNode_endTime (now : Time) (title : String) :
    (StartNewEchelonNode now title).endTime = Time.Unix 0 0 := rfl

/-! ## The rolling description buffer -/

theorem lastN_length {α : Type} (k : Nat) (l : List α) : (lastN k l).length = min k l.length := by
  unfold lastN
  rw [List.length_drop]
  omega

theorem lastN_of_length_le {α : Type} (k : Nat) (l : List α) (h : l.length ≤ k) : lastN k l = l := by
  unfold lastN
  rw [Nat.sub_eq_zero_of_le h, List.drop_zero]

theorem lastN_suffix {α : Type} (k : Nat) (l : List α) : lastN k l <:+ l :=
  List.drop_suffix _ _

/-- Keeping the last `k` lines after every step is keeping the last `k` lines once. -/
theorem lastN_append_lastN {α : Type} (k : Nat) (a b : List α) :
    lastN k (lastN k a ++ b) = lastN k (a ++ b) := by
  rcases Nat.le_total a.length k with h | h
  · rw [lastN_of_length_le k a h]
  · unfold lastN
    have e1 : (List.drop (a.length - k) a ++ b).length - k = b.length := by
      rw [List.length_append, List.length_drop]
      omega
    have e2 : (a ++ b).length - k = (a.length - k) + b.length := by
      rw [List.length_append]
      omega
    have e3 : List.drop (a.length - k + b.length) (a ++ b)
        = List.drop b.length (List.drop (a.length - k) (a ++ b)) := by
      rw [List.drop_drop, Nat.add_comm]
    rw [e1, e2, e3, List.drop_append_of_le_length (Nat.sub_le _ _)]

/-- What one `AppendDescription` does on a node whose cap is not negative. -/
theorem AppendDescription_eq (x : String) (d : Int) (t : String) (c : Int) (ds : List String)
    (m : Int) (s e : Time) (cs : List EchelonNode) (hm : 0 ≤ m) :
    AppendDescription x (.mk d t c ds m s e cs)
      = .ok (.mk d t c (lastN m.toNat (ds ++ [x])) m s e cs) := by
  unfold AppendDescription
  simp only [List.length_append, List.length_singleton]
  by_cases hgt : ((ds.length + 1 : Nat) : Int) > m
  · have hb : 0 ≤ ((ds.length + 1 : Nat) : Int) - m ∧
        ((ds.length + 1 : Nat) : Int) - m ≤ ((ds ++ [x]).length : Int) := by
      rw [List.length_append, List.length_singleton]
      omega
    have hidx : (((ds.length + 1 : Nat) : Int) - m).toNat = (ds ++ [x]).length - m.toNat := by
      rw [List.length_append, List.length_singleton]
      omega
    simp only [hgt, if_true, sliceFrom, hb, and_self, hidx, lastN]
  · have hle : (ds ++ [x]).length ≤ m.toNat := by
      rw [List.length_append, List.length_singleton]
      omega
    simp only [hgt, if_false, lastN_of_length_le _ _ hle]

/-- Appending a list of lines one by one keeps the last `m` lines of the whole history. -/
theorem appendAll_eq (lines : List String) (d : Int) (t : String) (c : Int) (m : Int) (s e : Time)
    (cs : List EchelonNode) (hm : 0 ≤ m) :
    ∀ ds : List String, ds.length ≤ m.toNat →
      appendAll lines (.mk d t c ds m s e cs)
        = .ok (.mk d t c (lastN m.toNat (ds ++ lines)) m s e cs) := by
  induction lines with
  | nil =>
    intro ds hds
    simp only [appendAll, List.map_nil, runOps, List.append_nil, lastN_of_length_le _ _ hds]
  | cons x rest ih =>
    intro ds _
    have hstep : (lastN m.toNat (ds ++ [x])).length ≤ m.toNat := by
      rw [lastN_length]
      exact Nat.min_le_left _ _
    have hrest := ih (lastN m.toNat (ds ++ [x])) hstep
    rw [lastN_append_lastN, List.append_assoc, List.singleton_append] at hrest
    simp only [appendAll, List.map_cons, runOps, Op.run, AppendDescription_eq x d t c ds m s e cs hm]
    exact hrest

/-- The cap and the bound on the buffer survive one method call, as long as a
`SetDescription` brings no more than five lines. -/
theorem opRun_bounded (op : Op) (node : EchelonNode)
    (hset : ∀ ds, op = Op.SetDescription ds → ds.length ≤ 5)
    (hmax : node.maxDescriptionLines = 5) (hlen : node.description.length ≤ 5) :
    (op.run node).node.maxDescriptionLines = 5 ∧ (op.run node).node.description.length ≤ 5 := by
  cases node with
  | mk d t c ds m s e cs =>
    simp only [EchelonNode.maxDescriptionLines, EchelonNode.description] at hmax hlen
    subst hmax
    cases op with
    | UpdateTitle text => exact ⟨rfl, hlen⟩
    | SetDescription ds1 => exact ⟨rfl, hset ds1 rfl⟩
    | ClearDescription => exact ⟨rfl, Nat.zero_le _⟩
    | AppendDescription text =>
      simp only [Op.run, AppendDescription_eq text d t c ds 5 s e cs (by decide), Outcome.node,
        EchelonNode.maxDescriptionLines, EchelonNode.description, lastN_length, true_and]
      exact Nat.min_le_left _ _
    | AddNewChild child => exact ⟨rfl, hlen⟩
    | Complete now =>
      simp only [Op.run, Complete, CompleteWithColor]
      split <;> exact ⟨rfl, hlen⟩
    | CompleteWithColor now col =>
      simp only [Op.run, CompleteWithColor]
      split <;> exact ⟨rfl, hlen⟩

theorem runOps_bounded (ops : List Op) :
    ∀ node : EchelonNode, (∀ ds, Op.SetDescription ds ∈ ops → ds.length ≤ 5) →
      node.maxDescriptionLines = 5 → node.description.length ≤ 5 →
      (runOps ops node).node.maxDescriptionLines = 5 ∧
        (runOps ops node).node.description.length ≤ 5 := by
  induction ops with
  | nil => intro node _ hmax hlen; exact ⟨hmax, hlen⟩
  | cons op rest ih =>
    intro node hset hmax hlen
    have hstep := opRun_bounded op node
      (fun ds h => hset ds (h ▸ List.mem_cons_self _ _)) hmax hlen
    unfold runOps
    cases hrun : op.run node with
    | ok node1 =>
      rw [hrun] at hstep
      exact ih node1 (fun ds h => hset ds (List.mem_cons_of_mem _ h)) hstep.1 hstep.2
    | panicked p node1 =>
      rw [hrun] at hstep
      exact hstep

/-! ## Claims about the description buffer -/

/-- C1. Lines appended one by one with `AppendDescription` to a node fresh from
`StartNewEchelonNode` (cap 5): every call returns, and the description afterwards is
the last `min N 5` of the `N` lines, in their order; "1" to "6" leave "2" to "6". -/
theorem appendAll_fresh (now : Time) (title : String) (lines : List String) :
    (appendAll lines (StartNewEchelonNode now title)).returned = true ∧
    (appendAll lines (StartNewEchelonNode now title)).node.description
      = lines.drop (lines.length - min lines.length 5) ∧
    (appendAll ["1", "2", "3", "4", "5", "6"] (StartNewEchelonNode now title)).node.description
      = ["2", "3", "4", "5", "6"] := by
  have key : ∀ ls : List String, appendAll ls (StartNewEchelonNode now title)
      = .ok (.mk 1 title (-1) (lastN 5 ls) 5 now (Time.Unix 0 0) []) := by
    intro ls
    have h := appendAll_eq ls 1 title (-1) 5 now (Time.Unix 0 0) [] (by decide) []
      (Nat.zero_le _)
    simpa [StartNewEchelonNode] using h
  refine ⟨?_, ?_, ?_⟩
  · rw [key]; rfl
  · rw [key]
    simp only [Outcome.node, EchelonNode.description, lastN]
    congr 1
    omega
  · rw [key]; rfl

/-- C2, as stated, fails: `SetDescription` with six lines on a fresh node leaves a
description of six lines under a cap of five. -/
theorem description_bound_counterexample :
    (runOps [Op.SetDescription ["1", "2", "3", "4", "5", "6"]]
        (StartNewEchelonNode (Time.Now 1700000000000000000 1) "test")).returned = true ∧
    ¬ (((runOps [Op.SetDescription ["1", "2", "3", "4", "5", "6"]]
        (StartNewEchelonNode (Time.Now 1700000000000000000 1) "test")).node.description.length : Int)
      ≤ (runOps [Op.SetDescription ["1", "2", "3", "4", "5", "6"]]
        (StartNewEchelonNode (Time.Now 1700000000000000000 1) "test")).node.maxDescriptionLines) := by
  decide

/-- C2, amended. In every state reached from `StartNewEchelonNode` by a sequence of
mutation calls in which each `SetDescription` brings at most five lines,
`len(description) ≤ maxDescriptionLines`. -/
theorem description_bound (now : Time) (title : String) (ops : List Op)
    (hset : ∀ ds, Op.SetDescription ds ∈ ops → ds.length ≤ 5) :
    ((runOps ops (StartNewEchelonNode now title)).node.description.length : Int)
      ≤ (runOps ops (StartNewEchelonNode now title)).node.maxDescriptionLines := by
  have h := runOps_bounded ops (StartNewEchelonNode now title) hset rfl (Nat.zero_le _)
  rw [h.1]
  exact_mod_cast h.2

theorem description_bound_witness :
    ((runOps [Op.AppendDescription "a", Op.SetDescription ["1", "2", "3", "4", "5"],
          Op.AppendDescription "6", Op.UpdateTitle "u", Op.Complete (Time.Now 9 9)]
        (StartNewEchelonNode (Time.Now 5 5) "test")).node.description.length : Int)
      ≤ (runOps [Op.AppendDescription "a", Op.SetDescription ["1", "2", "3", "4", "5"],
          Op.AppendDescription "6", Op.UpdateTitle "u", Op.Complete (Time.Now 9 9)]
        (StartNewEchelonNode (Time.Now 5 5) "test")).node.maxDescriptionLines :=
  description_bound (Time.Now 5 5) "test" _ (by
    intro ds h
    simp only [List.mem_cons, List.mem_singleton, List.mem_nil_iff, or_false, Op.SetDescription.injEq,
      reduceCtorEq, false_or] at h
    rw [h]
    decide)

/-- C3. On a node whose cap is not negative, with any prior description `D` (longer
than the cap included), `AppendDescription x` returns: the slice start index
`len(D) + 1 - cap` is within bounds whenever the slice is taken, the description
becomes the last `min (len(D) + 1) cap` elements of `D ++ [x]`, its length is at most
the cap, and what is dropped is a front part of `D ++ [x]`. -/
theorem AppendDescription_spec (node : EchelonNode) (x : String)
    (hcap : 0 ≤ node.maxDescriptionLines) :
    (((node.description ++ [x]).length : Int) > node.maxDescriptionLines →
      0 ≤ ((node.description ++ [x]).length : Int) - node.maxDescriptionLines ∧
      ((node.description ++ [x]).length : Int) - node.maxDescriptionLines
        ≤ ((node.description ++ [x]).length : Int)) ∧
    (AppendDescription x node).returned = true ∧
    (AppendDescription x node).node.description
      = (node.description ++ [x]).drop ((node.description ++ [x]).length
          - min (node.description.length + 1) node.maxDescriptionLines.toNat) ∧
    ((AppendDescription x node).node.description.length : Int) ≤ node.maxDescriptionLines ∧
    (∃ evicted, evicted ++ (AppendDescription x node).node.description = node.description ++ [x]) ∧
    (AppendDescription x node).node.maxDescriptionLines = node.maxDescriptionLines := by
  cases node with
  | mk d t c ds m s e cs =>
    simp only [EchelonNode.maxDescriptionLines, EchelonNode.description] at hcap ⊢
    rw [AppendDescription_eq x d t c ds m s e cs hcap]
    simp only [Outcome.node, Outcome.returned, EchelonNode.description,
      EchelonNode.maxDescriptionLines, and_true, true_and]
    refine ⟨?_, ?_, ?_, ?_⟩
    · intro _
      omega
    · unfold lastN
      congr 1
      rw [List.length_append, List.length_singleton]
      omega
    · rw [lastN_length]
      omega
    · exact lastN_suffix _ _

theorem AppendDescription_spec_witness :
    0 ≤ (SetDescription ["a", "b", "c", "d", "e", "f"]
        (StartNewEchelonNode (Time.Now 5 5) "test")).maxDescriptionLines ∧
    (AppendDescription "g" (SetDescription ["a", "b", "c", "d", "e", "f"]
        (StartNewEchelonNode (Time.Now 5 5) "test"))).node.description = ["c", "d", "e", "f", "g"] :=
  ⟨by decide, (AppendDescription_spec (SetDescription ["a", "b", "c", "d", "e", "f"]
        (StartNewEchelonNode (Time.Now 5 5) "test")) "g" (by decide)).2.2.1⟩

/-! ## Running state and execution time -/

/-- Within the range of the monotonic clock the saturating difference is exact. -/
theorem subMono_exact (a b : Int) (hb : 0 ≤ b) (hba : b ≤ a) (ha : a ≤ maxDuration) :
    subMono a b = a - b := by
  unfold maxDuration at ha
  have hw : wrapInt64 (a - b) = a - b := by
    unfold wrapInt64
    omega
  unfold subMono
  simp only [hw]
  rw [if_neg (by omega), if_neg (by omega)]

theorem CompleteWithColor_node (now : Time) (col : Int) (d : Int) (t : String) (c : Int)
    (ds : List String) (m : Int) (s e : Time) (cs : List EchelonNode) :
    (CompleteWithColor now col (.mk d t c ds m s e cs)).node = .mk (d - 1) t col ds m s now cs := by
  simp only [CompleteWithColor]
  split <;> rfl

/-- C4. After `Complete` or `CompleteWithColor`, called at a clock instant `now` that is
not before the node's `startTime`: `IsRunning()` is false, and `ExecutionDuration()` is
`endTime.Sub(startTime)` at whatever instant it is read, so two reads agree; when both
instants carry monotonic readings `b ≤ a` this is the exact difference `a - b`. -/
theorem Complete_freezes (node : EchelonNode) (now : Time) (ansiColor : Int)
    (hnow : now.Before node.startTime = false) :
    Complete now node = CompleteWithColor now (-1) node ∧
    IsRunning (CompleteWithColor now ansiColor node).node = false ∧
    (CompleteWithColor now ansiColor node).node.endTime = now ∧
    (CompleteWithColor now ansiColor node).node.startTime = node.startTime ∧
    (∀ read : Time, ExecutionDuration read (CompleteWithColor now ansiColor node).node
      = (CompleteWithColor now ansiColor node).node.endTime.Sub
          (CompleteWithColor now ansiColor node).node.startTime) ∧
    (∀ read1 read2 : Time, ExecutionDuration read1 (CompleteWithColor now ansiColor node).node
      = ExecutionDuration read2 (CompleteWithColor now ansiColor node).node) ∧
    (∀ (read : Time) (a b : Int), now.mono = some a → node.startTime.mono = some b →
      0 ≤ b → a ≤ maxDuration →
      ExecutionDuration read (CompleteWithColor now ansiColor node).node = a - b) := by
  cases node with
  | mk d t c ds m s e cs =>
    simp only [EchelonNode.startTime] at hnow
    have hrun : IsRunning (EchelonNode.mk (d - 1) t ansiColor ds m s now cs) = false := hnow
    have hdur : ∀ read : Time,
        ExecutionDuration read (EchelonNode.mk (d - 1) t ansiColor ds m s now cs) = now.Sub s := by
      intro read
      unfold ExecutionDuration
      rw [hrun]
      rfl
    rw [CompleteWithColor_node]
    refine ⟨rfl, hrun, rfl, rfl, ?_, ?_, ?_⟩
    · intro read
      rw [hdur]
      rfl
    · intro read1 read2
      rw [hdur, hdur]
    · intro read a b ha hb hb0 hamax
      rw [hdur]
      simp only [EchelonNode.startTime] at hb
      have hle : b ≤ a := by
        have h := hnow
        simp only [Time.Before, ha, hb, decide_eq_false_iff_not, not_lt] at h
        exact h
      simp only [Time.Sub, ha, hb]
      exact subMono_exact a b hb0 hle hamax

theorem Complete_freezes_witness :
    (Time.Now 1700000003000000000 3000000001).Before
        (StartNewEchelonNode (Time.Now 1700000000000000000 1) "test").startTime = false ∧
    IsRunning (CompleteWithColor (Time.Now 1700000003000000000 3000000001) 2
        (StartNewEchelonNode (Time.Now 1700000000000000000 1) "test")).node = false :=
  ⟨by decide, (Complete_freezes (StartNewEchelonNode (Time.Now 1700000000000000000 1) "test")
    (Time.Now 1700000003000000000 3000000001) 2 (by decide)).2.1⟩

/-- Calls other than completion leave `startTime` and `endTime` alone. -/
theorem opRun_times (op : Op) (node : EchelonNode) (hop : op.isCompletion = false) :
    (op.run node).node.startTime = node.startTime ∧ (op.run node).node.endTime = node.endTime := by
  cases node with
  | mk d t c ds m s e cs =>
    cases op with
    | UpdateTitle text => exact ⟨rfl, rfl⟩
    | SetDescription ds1 => exact ⟨rfl, rfl⟩
    | ClearDescription => exact ⟨rfl, rfl⟩
    | AppendDescription text =>
      simp only [Op.run, AppendDescription]
      split
      · split <;> exact ⟨rfl, rfl⟩
      · exact ⟨rfl, rfl⟩
    | AddNewChild child => exact ⟨rfl, rfl⟩
    | Complete now => simp [Op.isCompletion] at hop
    | CompleteWithColor now col => simp [Op.isCompletion] at hop

theorem runOps_times (ops : List Op) :
    ∀ node : EchelonNode, (∀ op ∈ ops, op.isCompletion = false) →
      (runOps ops node).node.startTime = node.startTime ∧
        (runOps ops node).node.endTime = node.endTime := by
  induction ops with
  | nil => intro node _; exact ⟨rfl, rfl⟩
  | cons op rest ih =>
    intro node hops
    have hstep := opRun_times op node (hops op (List.mem_cons_self _ _))
    unfold runOps
    cases hrun : op.run node with
    | ok node1 =>
      rw [hrun] at hstep
      have hrest := ih node1 (fun o ho => hops o (List.mem_cons_of_mem _ ho))
      exact ⟨hrest.1.trans hstep.1, hrest.2.trans hstep.2⟩
    | panicked p node1 =>
      rw [hrun] at hstep
      exact hstep

/-- C5. A node created by `StartNewEchelonNode` at a clock instant after the Unix epoch
(wall clock `w0 > 0`, monotonic reading `m0`) and not completed since, whatever other
mutation calls were made: `IsRunning()` is true, and `ExecutionDuration()` read at a
clock instant with monotonic reading `m ≥ m0` is `m - m0`, is not negative, and does
not decrease when read later. -/
theorem running_duration (title : String) (w0 m0 : Int) (ops : List Op) (w m : Int)
    (hepoch : 0 < w0) (hm0 : 0 ≤ m0) (hm : m0 ≤ m) (hmax : m ≤ maxDuration)
    (hops : ∀ op ∈ ops, op.isCompletion = false) :
    IsRunning (runOps ops (StartNewEchelonNode (Time.Now w0 m0) title)).node = true ∧
    ExecutionDuration (Time.Now w m) (runOps ops (StartNewEchelonNode (Time.Now w0 m0) title)).node
      = m - m0 ∧
    0 ≤ ExecutionDuration (Time.Now w m)
      (runOps ops (StartNewEchelonNode (Time.Now w0 m0) title)).node ∧
    (∀ w1 m1 : Int, m ≤ m1 → m1 ≤ maxDuration →
      ExecutionDuration (Time.Now w m) (runOps ops (StartNewEchelonNode (Time.Now w0 m0) title)).node
        ≤ ExecutionDuration (Time.Now w1 m1)
            (runOps ops (StartNewEchelonNode (Time.Now w0 m0) title)).node) := by
  have htimes := runOps_times ops (StartNewEchelonNode (Time.Now w0 m0) title) hops
  rw [StartNewEchelonNode_startTime, StartNewEchelonNode_endTime] at htimes
  have hrun : IsRunning (runOps ops (StartNewEchelonNode (Time.Now w0 m0) title)).node = true := by
    unfold IsRunning
    rw [htimes.1, htimes.2]
    simp only [Time.Before, Time.Unix, Time.Now, decide_eq_true_eq]
    omega
  have hdur : ∀ w1 m1 : Int, m0 ≤ m1 → m1 ≤ maxDuration →
      ExecutionDuration (Time.Now w1 m1)
        (runOps ops (StartNewEchelonNode (Time.Now w0 m0) title)).node = m1 - m0 := by
    intro w1 m1 h1 h2
    unfold ExecutionDuration
    rw [hrun, if_pos rfl, htimes.1]
    simp only [Time.Sub, Time.Now]
    exact subMono_exact m1 m0 hm0 h1 h2
  refine ⟨hrun, hdur w m hm hmax, ?_, ?_⟩
  · rw [hdur w m hm hmax]
    exact Int.sub_nonneg.mpr hm
  · intro w1 m1 h1 h2
    rw [hdur w m hm hmax, hdur w1 m1 (le_trans hm h1) h2]
    exact Int.sub_le_sub_right h1 m0

theorem running_duration_witness :
    ExecutionDuration (Time.Now 1700000003400000000 3400000001)
      (runOps [Op.AppendDescription "a", Op.UpdateTitle "b"]
        (StartNewEchelonNode (Time.Now 1700000000000000000 1) "test")).node
      = 3400000001 - 1 :=
  (running_duration "test" 1700000000000000000 1 [Op.AppendDescription "a", Op.UpdateTitle "b"]
    1700000003400000000 3400000001 (by decide) (by decide) (by decide) (by decide)
    (by decide)).2.1

/-! ## Rendering -/

theorem Draw_mk (clock : Nat → Time) (d : Int) (t : String) (c : Int) (ds : List String)
    (m : Int) (s e : Time) (cs : List EchelonNode) (i : Nat) :
    Draw clock (.mk d t c ds m s e cs) i
      = if cs.length > 0 then
          (fancyTitle (clock i) (.mk d t c ds m s e cs)
              :: (DrawChildren clock cs (tick (.mk d t c ds m s e cs) i)).1,
            (DrawChildren clock cs (tick (.mk d t c ds m s e cs) i)).2)
        else
          (fancyTitle (clock i) (.mk d t c ds m s e cs) :: ds.map indent,
            tick (.mk d t c ds m s e cs) i) := by
  rw [Draw]

theorem DrawChildren_nil (clock : Nat → Time) (i : Nat) : DrawChildren clock [] i = ([], i) := by
  rw [DrawChildren]

theorem DrawChildren_cons (clock : Nat → Time) (child : EchelonNode) (rest : List EchelonNode)
    (i : Nat) :
    DrawChildren clock (child :: rest) i
      = ((Draw clock child i).1.map indent ++ (DrawChildren clock rest (Draw clock child i).2).1,
          (DrawChildren clock rest (Draw clock child i).2).2) := by
  rw [DrawChildren]

/-- The children loop concatenates the indented outputs of the children, in order. -/
theorem DrawChildren_lines (clock : Nat → Time) (cs : List EchelonNode) :
    ∀ i : Nat, (DrawChildren clock cs i).1
      = ((drawEach clock cs i).map (fun out => out.map indent)).flatten := by
  induction cs with
  | nil => intro i; rw [DrawChildren_nil]; rfl
  | cons child rest ih =>
    intro i
    rw [DrawChildren_cons]
    simp only [drawEach, List.map_cons, List.flatten_cons, ih]

theorem drawEach_length (clock : Nat → Time) (cs : List EchelonNode) :
    ∀ i : Nat, (drawEach clock cs i).length = cs.length := by
  induction cs with
  | nil => intro i; rfl
  | cons child rest ih => intro i; simp only [drawEach, List.length_cons, ih]

/-- Each entry of `drawEach` is the `Draw` output of the child at the same position. -/
theorem drawEach_getElem? (clock : Nat → Time) (cs : List EchelonNode) :
    ∀ (i k : Nat) (child : EchelonNode), cs[k]? = some child →
      ∃ j : Nat, (drawEach clock cs i)[k]? = some (Draw clock child j).1 := by
  induction cs with
  | nil => intro i k child h; simp at h
  | cons first rest ih =>
    intro i k child h
    cases k with
    | zero =>
      simp only [List.getElem?_cons_zero, Option.some.injEq] at h
      subst h
      exact ⟨i, by simp only [drawEach, List.getElem?_cons_zero]⟩
    | succ k =>
      simp only [List.getElem?_cons_succ] at h
      obtain ⟨j, hj⟩ := ih (Draw clock first i).2 k child h
      exact ⟨j, by simp only [drawEach, List.getElem?_cons_succ, hj]⟩

/-- C6. On a node with at least one child, `Draw()` returns the node's own title line,
then, child after child in insertion order, every line of the child's `Draw()` output
with two spaces in front; the node's own description does not enter the output. -/
theorem Draw_children (clock : Nat → Time) (node : EchelonNode) (i : Nat)
    (hchildren : node.children.length > 0) :
    (Draw clock node i).1
      = fancyTitle (clock i) node
          :: ((drawEach clock node.children (tick node i)).map
                (fun out => out.map (fun line => "  " ++ line))).flatten ∧
    (drawEach clock node.children (tick node i)).length = node.children.length ∧
    (∀ (k : Nat) (child : EchelonNode), node.children[k]? = some child →
      ∃ j : Nat, (drawEach clock node.children (tick node i))[k]? = some (Draw clock child j).1) ∧
    (∀ ds : List String, (Draw clock (SetDescription ds node) i).1 = (Draw clock node i).1) := by
  cases node with
  | mk d t c ds m s e cs =>
    simp only [EchelonNode.children] at hchildren ⊢
    refine ⟨?_, drawEach_length clock cs _, drawEach_getElem? clock cs _, ?_⟩
    · rw [Draw_mk, if_pos hchildren, DrawChildren_lines]
      rfl
    · intro ds1
      simp only [SetDescription]
      rw [Draw_mk, Draw_mk, if_pos hchildren, if_pos hchildren]
      rfl

theorem Draw_children_witness :
    (AddNewChild (AppendDescription "x" (StartNewEchelonNode (Time.Now 20 2) "kid")).node
        (StartNewEchelonNode (Time.Now 10 1) "top")).children.length > 0 ∧
    (Draw (fun i => Time.Now (30 + i) (3 + i))
        (AddNewChild (AppendDescription "x" (StartNewEchelonNode (Time.Now 20 2) "kid")).node
          (StartNewEchelonNode (Time.Now 10 1) "top")) 0).1
      = fancyTitle (Time.Now 30 3)
            (AddNewChild (AppendDescription "x" (StartNewEchelonNode (Time.Now 20 2) "kid")).node
              (StartNewEchelonNode (Time.Now 10 1) "top"))
          :: ((drawEach (fun i => Time.Now (30 + i) (3 + i))
                [(AppendDescription "x" (StartNewEchelonNode (Time.Now 20 2) "kid")).node] 1).map
                (fun out => out.map (fun line => "  " ++ line))).flatten :=
  ⟨by decide, (Draw_children (fun i => Time.Now (30 + i) (3 + i))
    (AddNewChild (AppendDescription "x" (StartNewEchelonNode (Time.Now 20 2) "kid")).node
      (StartNewEchelonNode (Time.Now 10 1) "top")) 0 (by decide)).1⟩

/-- The title line, written out. -/
theorem fancyTitle_eq (now : Time) (node : EchelonNode) :
    fancyTitle now node
      = (if IsRunning node then "[-]" else "[+]") ++ " " ++ getColorSequence node.titleColor
          ++ node.title ++ "\x1b[0m" ++ " " ++ formatDuration (ExecutionDuration now node) := by
  simp only [fancyTitle, resetSequence, String.append_assoc]

theorem Draw_head (clock : Nat → Time) (node : EchelonNode) (i : Nat) :
    (Draw clock node i).1.head? = some (fancyTitle (clock i) node) := by
  cases node with
  | mk d t c ds m s e cs =>
    rw [Draw_mk]
    split <;> rfl

/-- C7, as stated, fails: on the running leaf with title "t" and description "a", "b",
read 3.4 seconds after its start, the title line is `[-] ESC[0mtESC[0m 3.4s`, with the
colour sequence before the title and the reset sequence after it, and not `[-] t 3.4s`. -/
theorem Draw_leaf_title_has_escapes :
    IsRunning (SetDescription ["a", "b"]
      (StartNewEchelonNode (Time.Now 1700000000000000000 1) "t")) = true ∧
    (SetDescription ["a", "b"]
      (StartNewEchelonNode (Time.Now 1700000000000000000 1) "t")).children.length = 0 ∧
    formatDuration (ExecutionDuration (Time.Now 1700000003400000000 3400000001)
      (SetDescription ["a", "b"] (StartNewEchelonNode (Time.Now 1700000000000000000 1) "t")))
      = "3.4s" ∧
    (Draw (fun _ => Time.Now 1700000003400000000 3400000001)
        (SetDescription ["a", "b"] (StartNewEchelonNode (Time.Now 1700000000000000000 1) "t")) 0).1
      = ["[-] \x1b[0mt\x1b[0m 3.4s", "  a", "  b"] ∧
    (Draw (fun _ => Time.Now 1700000003400000000 3400000001)
        (SetDescription ["a", "b"] (StartNewEchelonNode (Time.Now 1700000000000000000 1) "t")) 0).1
      ≠ ["[-] t 3.4s", "  a", "  b"] := by
  decide

/-- C7, amended. On a running leaf (no children) with title `t`, colour `c` and
description `L`, `Draw()` returns `1 + len(L)` lines: first the title line `[-]`, a
space, the colour sequence of `c`, `t`, the reset sequence, a space and the formatted
duration, then each line of `L` in order with two spaces in front. -/
theorem Draw_running_leaf (clock : Nat → Time) (node : EchelonNode) (i : Nat)
    (hleaf : node.children = []) (hrun : IsRunning node = true) :
    (Draw clock node i).1
      = ("[-]" ++ " " ++ getColorSequence node.titleColor ++ node.title ++ "\x1b[0m" ++ " "
            ++ formatDuration ((clock i).Sub node.startTime))
          :: node.description.map (fun line => "  " ++ line) ∧
    (Draw clock node i).1.length = 1 + node.description.length := by
  have htitle : fancyTitle (clock i) node
      = "[-]" ++ " " ++ getColorSequence node.titleColor ++ node.title ++ "\x1b[0m" ++ " "
          ++ formatDuration ((clock i).Sub node.startTime) := by
    rw [fancyTitle_eq]
    simp only [ExecutionDuration, hrun, if_true]
  cases node with
  | mk d t c ds m s e cs =>
    simp only [EchelonNode.children] at hleaf
    subst hleaf
    rw [Draw_mk, if_neg (by decide), htitle]
    refine ⟨rfl, ?_⟩
    simp only [List.length_cons, List.length_map, EchelonNode.description]
    omega

theorem Draw_running_leaf_witness :
    IsRunning (SetDescription ["a", "b"] (StartNewEchelonNode (Time.Now 1700000000000000000 1) "t"))
      = true ∧
    (Draw (fun _ => Time.Now 1700000003400000000 3400000001)
        (SetDescription ["a", "b"] (StartNewEchelonNode (Time.Now 1700000000000000000 1) "t")) 0).1
      = ["[-] \x1b[0mt\x1b[0m 3.4s", "  a", "  b"] :=
  ⟨by decide, (Draw_running_leaf (fun _ => Time.Now 1700000003400000000 3400000001)
    (SetDescription ["a", "b"] (StartNewEchelonNode (Time.Now 1700000000000000000 1) "t")) 0
    rfl (by decide)).1.trans (by decide)⟩

/-- C8. The title line of every node, which is line 0 of `Draw()`, is the marker `[-]`
(running) or `[+]` (completed), a space, the colour sequence of `titleColor`, the
title, the reset sequence, a space, and the formatted `ExecutionDuration()`. -/
theorem fancyTitle_format (clock : Nat → Time) (node : EchelonNode) (i : Nat) :
    fancyTitle (clock i) node
      = (if IsRunning node then "[-]" else "[+]") ++ " " ++ getColorSequence node.titleColor
          ++ node.title ++ "\x1b[0m" ++ " "
          ++ formatDuration (ExecutionDuration (clock i) node) ∧
    (Draw clock node i).1.head? = some (fancyTitle (clock i) node) :=
  ⟨fancyTitle_eq (clock i) node, Draw_head clock node i⟩

/-! ## Duration formatting -/

/-- The rounded quotient is within half a unit of the exact one. -/
theorem roundHalfEven_bounds (n d : Nat) (hd : 0 < d) :
    2 * (roundHalfEven n d * d) ≤ 2 * n + d ∧ 2 * n ≤ 2 * (roundHalfEven n d * d) + d := by
  have hn : d * (n / d) + n % d = n := Nat.div_add_mod n d
  have hr : n % d < d := Nat.mod_lt n hd
  have hq : n / d * d = d * (n / d) := Nat.mul_comm _ _
  have hq1 : (n / d + 1) * d = d * (n / d) + d := by rw [Nat.add_mul, Nat.one_mul, hq]
  unfold roundHalfEven
  simp only
  split_ifs
  · rw [hq]; omega
  · rw [hq1]; omega
  · rw [hq]; omega
  · rw [hq1]; omega

/-- The exponent search finds a scaling that reaches 53 bits when one exists within the fuel. -/
theorem binExpFrom_spec (n d : Nat) :
    ∀ (fuel k0 : Nat), (∃ k1, k0 ≤ k1 ∧ k1 < k0 + fuel ∧ d * 2 ^ 52 ≤ n * 2 ^ k1) →
      d * 2 ^ 52 ≤ n * 2 ^ binExpFrom n d fuel k0 := by
  intro fuel
  induction fuel with
  | zero =>
    intro k0 h
    obtain ⟨k1, h1, h2, _⟩ := h
    omega
  | succ fuel ih =>
    intro k0 h
    unfold binExpFrom
    split_ifs with hk
    · exact hk
    · apply ih
      obtain ⟨k1, h1, h2, h3⟩ := h
      refine ⟨k1, ?_, by omega, h3⟩
      rcases Nat.eq_or_lt_of_le h1 with heq | hlt
      · subst heq
        exact absurd h3 hk
      · exact hlt

/-- The quotient `float64(ms) / 1000` for a positive number of milliseconds. -/
theorem div_thousand_eq (ms : Nat) (hpos : 0 < ms) :
    F64.div (F64.ofInt (ms : Int)) (F64.ofInt 1000)
      = ⟨(roundHalfEven (ms * 2 ^ binExpFrom ms 1000 1074 0) 1000 : Int),
          binExpFrom ms 1000 1074 0⟩ := by
  have hne : (ms : Int) ≠ 0 := by omega
  have hsign : Int.sign (ms : Int) = 1 := Int.sign_eq_one_of_pos (by omega)
  have h1000 : Int.sign 1000 = 1 := by decide
  simp [F64.div, F64.ofInt, F64.round, hne, hsign, h1000]

/-- The quotient `float64(ms) / 1000` is not negative when `ms` is not. -/
theorem div_thousand_num_nonneg (ms : Nat) :
    0 ≤ (F64.div (F64.ofInt (ms : Int)) (F64.ofInt 1000)).num := by
  rcases Nat.eq_zero_or_pos ms with h0 | hpos
  · subst h0
    decide
  · rw [div_thousand_eq ms hpos]
    exact Int.ofNat_nonneg _

/-- Tenths shown for a whole number of milliseconds below ten seconds: the nearest
tenth of a second. -/
theorem tenths_of_milliseconds (ms : Nat) (hms : ms < 10000) :
    100 * (F64.div (F64.ofInt (ms : Int)) (F64.ofInt 1000)).tenths ≤ ms + 50 ∧
    ms ≤ 100 * (F64.div (F64.ofInt (ms : Int)) (F64.ofInt 1000)).tenths + 50 := by
  rcases Nat.eq_zero_or_pos ms with h0 | hpos
  · subst h0
    decide
  · rw [div_thousand_eq ms hpos]
    simp only [F64.tenths, Int.natAbs_ofNat]
    have hk : 1000 * 2 ^ 52 ≤ ms * 2 ^ binExpFrom ms 1000 1074 0 := by
      apply binExpFrom_spec
      refine ⟨62, Nat.zero_le _, by decide, ?_⟩
      calc 1000 * 2 ^ 52 ≤ 1 * 2 ^ 62 := by norm_num
        _ ≤ ms * 2 ^ 62 := Nat.mul_le_mul_right _ hpos
    generalize binExpFrom ms 1000 1074 0 = k at hk ⊢
    have hP : 0 < 2 ^ k := Nat.two_pow_pos k
    generalize 2 ^ k = P at hk hP ⊢
    have hPbig : 500 < P := by
      have h1 : ms * P ≤ 9999 * P := Nat.mul_le_mul_right _ (by omega)
      norm_num at hk
      omega
    obtain ⟨hM1, hM2⟩ := roundHalfEven_bounds (ms * P) 1000 (by decide)
    generalize roundHalfEven (ms * P) 1000 = M at hM1 hM2 ⊢
    obtain ⟨hT1, hT2⟩ := roundHalfEven_bounds (10 * M) P hP
    generalize roundHalfEven (10 * M) P = T at hT1 hT2 ⊢
    constructor
    · by_contra hcon
      have h1 : ms + 51 ≤ 100 * T := by omega
      have h2 : (ms + 51) * P ≤ 100 * T * P := Nat.mul_le_mul_right _ h1
      have h3 : (ms + 51) * P = ms * P + 51 * P := Nat.add_mul _ _ _
      have h4 : 100 * T * P = 100 * (T * P) := Nat.mul_assoc _ _ _
      omega
    · by_contra hcon
      have h1 : 100 * T + 51 ≤ ms := by omega
      have h2 : (100 * T + 51) * P ≤ ms * P := Nat.mul_le_mul_right _ h1
      have h3 : (100 * T + 51) * P = 100 * (T * P) + 51 * P := by
        rw [Nat.add_mul, Nat.mul_assoc]
      omega

/-- C9, as stated, fails: 9999 ms is shown as "10.0s", the nearest tenth, and not as
the floored "9.9s". -/
theorem formatDuration_rounds_up :
    (0 : Int) ≤ 9999 * Millisecond ∧ 9999 * Millisecond < 10 * Second ∧
    formatDuration (9999 * Millisecond) = "10.0s" ∧
    formatDuration (9999 * Millisecond) ≠ "9.9s" := by
  decide

/-- C9, amended. For `0 ≤ d < 10s`, `formatDuration d` is the number of seconds with
one decimal digit followed by `s`, where the tenths `T` shown are the whole milliseconds
of `d` rounded to the nearest tenth of a second (not floored); 9999 ms gives "10.0s". -/
theorem formatDuration_below_ten_seconds (d : Int) (h0 : 0 ≤ d) (h10 : d < 10 * Second) :
    ∃ T : Nat,
      formatDuration d = toString (T / 10) ++ "." ++ toString (T % 10) ++ "s" ∧
      T % 10 < 10 ∧
      100 * (T : Int) ≤ d / 1000000 + 50 ∧ d / 1000000 ≤ 100 * (T : Int) + 50 := by
  have hsec : (10 * Second : Int) = 10000000000 := by decide
  rw [hsec] at h10
  obtain ⟨ms, hms⟩ : ∃ ms : Nat, d / 1000000 = (ms : Int) :=
    ⟨(d / 1000000).toNat, (Int.toNat_of_nonneg (Int.ediv_nonneg h0 (by decide))).symm⟩
  have hlt : ms < 10000 := by omega
  have htdiv : Duration.Milliseconds d = (ms : Int) := by
    unfold Duration.Milliseconds
    rw [Int.tdiv_eq_ediv h0 (by decide), hms]
  obtain ⟨hT1, hT2⟩ := tenths_of_milliseconds ms hlt
  refine ⟨(F64.div (F64.ofInt (ms : Int)) (F64.ofInt 1000)).tenths, ?_, Nat.mod_lt _ (by decide), ?_, ?_⟩
  · have hnum : ¬ (F64.div (F64.ofInt (ms : Int)) (F64.ofInt 1000)).num < 0 :=
      not_lt.mpr (div_thousand_num_nonneg ms)
    unfold formatDuration
    rw [if_pos (by rw [hsec]; exact h10), htdiv]
    simp only [fmtF1, hnum, if_false, String.empty_append]
  · rw [hms]
    exact_mod_cast hT1
  · rw [hms]
    exact_mod_cast hT2

theorem formatDuration_below_ten_seconds_witness :
    (0 : Int) ≤ 3449999999 ∧ (3449999999 : Int) < 10 * Second ∧
    ∃ T : Nat,
      formatDuration 3449999999 = toString (T / 10) ++ "." ++ toString (T % 10) ++ "s" ∧
      T % 10 < 10 ∧
      100 * (T : Int) ≤ 3449999999 / 1000000 + 50 ∧ 3449999999 / 1000000 ≤ 100 * (T : Int) + 50 :=
  ⟨by decide, by decide, formatDuration_below_ten_seconds 3449999999 (by decide) (by decide)⟩

/-- C10 at 2 minutes 15 seconds: the second field is the total number of seconds, so
the code prints "02:135" where the claim has "02:15". -/
theorem formatDuration_minutes_total_seconds :
    60 * Second ≤ 2 * Minute + 15 * Second ∧ 2 * Minute + 15 * Second < Hour ∧
    formatDuration (2 * Minute + 15 * Second) = "02:135" ∧
    formatDuration (2 * Minute + 15 * Second) ≠ "02:15" := by
  decide


/-! ## Whole seconds, minutes and hours of a duration -/

/-- Rounding a scaled sum `a + M / P` with `M / P` a rounded proper fraction `n / U`:
the result stays in `[a, a + 1)`. -/
theorem floor_core (a n U P Q M R J : Nat) (hnU : n < U) (hP : 2 ^ 52 < P) (hUP : U ≤ P)
    (hM : 2 * (M * U) ≤ 2 * (n * P) + U)
    (hJQ : J ≤ Q) (hJ2 : U < 2 * J) (hJU : J * U ≤ (2 * J - U) * 2 ^ 52)
    (hR1 : 2 * (R * P) ≤ 2 * ((a * P + M) * Q) + P)
    (hR2 : 2 * ((a * P + M) * Q) ≤ 2 * (R * P) + P) :
    a * Q ≤ R ∧ R < (a + 1) * Q := by
  have hPpos : 0 < P := lt_trans (by norm_num) hP
  constructor
  · -- lower bound
    have h1 : 2 * (a * Q) * P ≤ (2 * R + 1) * P := by nlinarith
    have h2 := Nat.le_of_mul_le_mul_right h1 hPpos
    omega
  · by_contra hcon
    have hge : (a + 1) * Q ≤ R := Nat.le_of_not_lt hcon
    obtain ⟨e, he⟩ : ∃ e, 2 * J = U + e := ⟨2 * J - U, by omega⟩
    have he' : 2 * J - U = e := by omega
    rw [he'] at hJU
    have hepos : 0 < e := by omega
    -- 2 Q (P - M) ≤ P
    have h1 : 2 * (Q * P) ≤ 2 * (M * Q) + P := by nlinarith
    -- multiply by U
    have h2 : 2 * (Q * P) * U ≤ (2 * (M * Q) + P) * U := Nat.mul_le_mul_right U h1
    have h3 : 2 * (M * U) * Q ≤ (2 * (n * P) + U) * Q := Nat.mul_le_mul_right Q hM
    have h4 : n + 1 ≤ U := hnU
    have h5 : (n + 1) * (P * Q) ≤ U * (P * Q) := Nat.mul_le_mul_right _ h4
    have h6 : J * P ≤ Q * P := Nat.mul_le_mul_right P hJQ
    have h7 : e * 2 ^ 52 < e * P := (Nat.mul_lt_mul_left hepos).mpr hP
    have h8 : J * U ≤ Q * U := Nat.mul_le_mul_right U hJQ
    nlinarith

theorem roundHalfEven_one (n : Nat) : roundHalfEven n 1 = n := by
  simp [roundHalfEven, Nat.mod_one]

/-- The rounded value of a positive rational. -/
theorem F64.round_pos (n d : Nat) (hn : 0 < n) :
    F64.round (n : Int) d
      = ⟨(roundHalfEven (n * 2 ^ binExpFrom n d 1074 0) d : Int), binExpFrom n d 1074 0⟩ := by
  have hne : (n : Int) ≠ 0 := by omega
  have hsign : Int.sign (n : Int) = 1 := Int.sign_eq_one_of_pos (by omega)
  simp [F64.round, hne, hsign]

/-- The quotient `float64(n) / U` of natural numbers. -/
theorem F64.div_ofNat (n U : Nat) (hU : 0 < U) :
    F64.div (F64.ofInt (n : Int)) (F64.ofInt (U : Int)) = F64.round (n : Int) U := by
  have hsign : Int.sign (U : Int) = 1 := Int.sign_eq_one_of_pos (by omega)
  simp [F64.div, F64.ofInt, hsign]

/-- The floor of a non-negative `float64`. -/
theorem F64.floor_ofNat (r j : Nat) : F64.floor ⟨(r : Int), j⟩ = ((r / 2 ^ j : Nat) : Int) := by
  unfold F64.floor
  rw [Int.fdiv_eq_ediv _ (by positivity)]
  norm_cast

/-- `int(math.Floor(float64(a) + float64(n) / U))` is `a` for a proper fraction `n / U`,
as long as `a + 1 ≤ 2 ^ p` leaves enough of the 53 bits to tell `(U - 1) / U` from 1. -/
theorem floor_add_div (a n U p : Nat) (ha : 1 ≤ a) (hn : n < U) (hp : a + 1 ≤ 2 ^ p)
    (hU42 : U ≤ 2 ^ 42) (hJ2 : U < 2 * 2 ^ (53 - p))
    (hJU : 2 ^ (53 - p) * U ≤ (2 * 2 ^ (53 - p) - U) * 2 ^ 52) :
    F64.floor (F64.add (F64.ofInt (a : Int)) (F64.div (F64.ofInt (n : Int)) (F64.ofInt (U : Int))))
      = (a : Int) := by
  have hUpos : 0 < U := by omega
  rw [F64.div_ofNat n U hUpos]
  rcases Nat.eq_zero_or_pos n with h0 | hpos
  · subst h0
    have hadd : F64.add (F64.ofInt (a : Int)) (F64.round ((0 : Nat) : Int) U)
        = F64.round (a : Int) 1 := by
      simp [F64.add, F64.ofInt, F64.round]
    rw [hadd, F64.round_pos a 1 ha, roundHalfEven_one, F64.floor_ofNat]
    congr 1
    exact Nat.mul_div_cancel _ (Nat.two_pow_pos _)
  · rw [F64.round_pos n U hpos]
    have hk : U * 2 ^ 52 ≤ n * 2 ^ binExpFrom n U 1074 0 := by
      apply binExpFrom_spec
      refine ⟨94, Nat.zero_le _, by decide, ?_⟩
      calc U * 2 ^ 52 ≤ 2 ^ 42 * 2 ^ 52 := Nat.mul_le_mul_right _ hU42
        _ = 1 * 2 ^ 94 := by norm_num
        _ ≤ n * 2 ^ 94 := Nat.mul_le_mul_right _ hpos
    obtain ⟨hM1, _⟩ := roundHalfEven_bounds (n * 2 ^ binExpFrom n U 1074 0) U hUpos
    generalize binExpFrom n U 1074 0 = k at hk hM1 ⊢
    generalize roundHalfEven (n * 2 ^ k) U = M at hM1 ⊢
    have hPpos : 0 < 2 ^ k := Nat.two_pow_pos k
    have hP : 2 ^ 52 < 2 ^ k := by
      have h1 : n * 2 ^ k < U * 2 ^ k := (Nat.mul_lt_mul_right hPpos).mpr hn
      exact Nat.lt_of_mul_lt_mul_left (lt_of_le_of_lt hk h1)
    have hUP : U ≤ 2 ^ k := by
      have : (2 : Nat) ^ 42 ≤ 2 ^ 52 := by norm_num
      omega
    have hMP : M < 2 ^ k := by
      by_contra hcon
      have hge : 2 ^ k ≤ M := Nat.le_of_not_lt hcon
      have h1 : 2 ^ k * U ≤ M * U := Nat.mul_le_mul_right U hge
      have h2 : (n + 1) * 2 ^ k ≤ U * 2 ^ k := Nat.mul_le_mul_right _ hn
      nlinarith
    have hadd : F64.add (F64.ofInt (a : Int)) ⟨(M : Int), k⟩
        = F64.round ((a * 2 ^ k + M : Nat) : Int) (2 ^ k) := by
      simp [F64.add, F64.ofInt]
    have hNpos : 0 < a * 2 ^ k + M := by positivity
    rw [hadd, F64.round_pos _ _ hNpos, F64.floor_ofNat]
    have hj : 2 ^ k * 2 ^ 52 ≤ (a * 2 ^ k + M) * 2 ^ binExpFrom (a * 2 ^ k + M) (2 ^ k) 1074 0 := by
      apply binExpFrom_spec
      refine ⟨52, Nat.zero_le _, by decide, ?_⟩
      have h1 : 1 * 2 ^ k ≤ a * 2 ^ k + M :=
        le_trans (Nat.mul_le_mul_right _ ha) (Nat.le_add_right _ _)
      calc 2 ^ k * 2 ^ 52 = 1 * 2 ^ k * 2 ^ 52 := by rw [Nat.one_mul]
        _ ≤ (a * 2 ^ k + M) * 2 ^ 52 := Nat.mul_le_mul_right _ h1
    obtain ⟨hR1, hR2⟩ := roundHalfEven_bounds
      ((a * 2 ^ k + M) * 2 ^ binExpFrom (a * 2 ^ k + M) (2 ^ k) 1074 0) (2 ^ k) hPpos
    generalize binExpFrom (a * 2 ^ k + M) (2 ^ k) 1074 0 = j at hj hR1 hR2 ⊢
    generalize roundHalfEven ((a * 2 ^ k + M) * 2 ^ j) (2 ^ k) = R at hR1 hR2 ⊢
    have hJQ : 2 ^ (53 - p) ≤ 2 ^ j := by
      apply Nat.pow_le_pow_right (by decide)
      have h1 : (a * 2 ^ k + M) * 2 ^ j < 2 ^ p * 2 ^ k * 2 ^ j := by
        apply (Nat.mul_lt_mul_right (Nat.two_pow_pos j)).mpr
        calc a * 2 ^ k + M < a * 2 ^ k + 2 ^ k := by omega
          _ = (a + 1) * 2 ^ k := by ring
          _ ≤ 2 ^ p * 2 ^ k := Nat.mul_le_mul_right _ hp
      have h2 : 2 ^ k * 2 ^ 52 < 2 ^ k * 2 ^ (p + j) := by
        calc 2 ^ k * 2 ^ 52 ≤ (a * 2 ^ k + M) * 2 ^ j := hj
          _ < 2 ^ p * 2 ^ k * 2 ^ j := h1
          _ = 2 ^ k * 2 ^ (p + j) := by ring
      have h3 : (2 : Nat) ^ 52 < 2 ^ (p + j) := Nat.lt_of_mul_lt_mul_left h2
      have h4 : 52 < p + j := (Nat.pow_lt_pow_iff_right (by decide)).mp h3
      omega
    obtain ⟨hlo, hhi⟩ := floor_core a n U (2 ^ k) (2 ^ j) M R (2 ^ (53 - p)) hn hP hUP hM1 hJQ hJ2
      hJU hR1 hR2
    congr 1
    exact Nat.div_eq_of_lt_le hlo hhi

/-- `int(math.Floor(d.Seconds()))` is the whole number of seconds, from one second up to
`2 ^ 24` seconds. -/
theorem Seconds_floor (D : Nat) (h1 : 1000000000 ≤ D) (h2 : D < 16777216 * 1000000000) :
    (Duration.Seconds (D : Int)).floor = ((D / 1000000000 : Nat) : Int) := by
  have hdiv : Int.tdiv (D : Int) Second = ((D / 1000000000 : Nat) : Int) := by
    rw [Int.tdiv_eq_ediv (by omega) (by decide)]
    rfl
  have hmod : Int.tmod (D : Int) Second = ((D % 1000000000 : Nat) : Int) := by
    rw [Int.tmod_eq_emod (by omega) (by decide)]
    rfl
  unfold Duration.Seconds
  rw [hdiv, hmod]
  exact floor_add_div (D / 1000000000) (D % 1000000000) 1000000000 24
    (by omega) (Nat.mod_lt _ (by decide)) (by norm_num; omega) (by norm_num) (by norm_num)
    (by norm_num)

/-- `int(math.Floor(d.Minutes()))` is the whole number of minutes, from one minute up to
`2 ^ 18` minutes. -/
theorem Minutes_floor (D : Nat) (h1 : 60000000000 ≤ D) (h2 : D < 262144 * 60000000000) :
    (Duration.Minutes (D : Int)).floor = ((D / 60000000000 : Nat) : Int) := by
  have hdiv : Int.tdiv (D : Int) Minute = ((D / 60000000000 : Nat) : Int) := by
    rw [Int.tdiv_eq_ediv (by omega) (by decide)]
    rfl
  have hmod : Int.tmod (D : Int) Minute = ((D % 60000000000 : Nat) : Int) := by
    rw [Int.tmod_eq_emod (by omega) (by decide)]
    rfl
  unfold Duration.Minutes
  rw [hdiv, hmod]
  exact floor_add_div (D / 60000000000) (D % 60000000000) 60000000000 18
    (by omega) (Nat.mod_lt _ (by decide)) (by norm_num; omega) (by norm_num) (by norm_num)
    (by norm_num)

/-- `int(math.Floor(d.Hours()))` is the whole number of hours, from one hour up to
`2 ^ 12` hours. -/
theorem Hours_floor (D : Nat) (h1 : 3600000000000 ≤ D) (h2 : D < 4096 * 3600000000000) :
    (Duration.Hours (D : Int)).floor = ((D / 3600000000000 : Nat) : Int) := by
  have hdiv : Int.tdiv (D : Int) Hour = ((D / 3600000000000 : Nat) : Int) := by
    rw [Int.tdiv_eq_ediv (by omega) (by decide)]
    rfl
  have hmod : Int.tmod (D : Int) Hour = ((D % 3600000000000 : Nat) : Int) := by
    rw [Int.tmod_eq_emod (by omega) (by decide)]
    rfl
  unfold Duration.Hours
  rw [hdiv, hmod]
  exact floor_add_div (D / 3600000000000) (D % 3600000000000) 3600000000000 12
    (by omega) (Nat.mod_lt _ (by decide)) (by norm_num; omega) (by norm_num) (by norm_num)
    (by norm_num)

/-- C11, as stated, fails: one nanosecond short of 4097 hours the `float64` sum in
`Hours()` rounds up to 4097, so the hour field shows 4097 and not the 4096 whole hours
of the duration. -/
theorem formatDuration_hours_round_up :
    Hour ≤ 4096 * Hour + 3599999999999 ∧
    formatDuration (4096 * Hour + 3599999999999) = "4097:245819:14749199" ∧
    (4096 * Hour + 3599999999999) / Hour = 4096 ∧
    (4096 * Hour + 3599999999999) / Minute = 245819 ∧
    (4096 * Hour + 3599999999999) / Second = 14749199 := by
  decide

/-- C11, amended. For `1h ≤ d < 4096h`, `formatDuration d` is `HH:MM:SS`, each field
padded with zeros to at least two digits, with `HH` the whole hours of `d`, `MM` the
whole minutes of `d` in total and `SS` the whole seconds of `d` in total (no reduction
modulo 60); exactly one hour gives "01:60:3600". -/
theorem formatDuration_from_one_hour (d : Int) (h1 : Hour ≤ d) (h2 : d < 4096 * Hour) :
    formatDuration d
      = fmtD02 (d / Hour) ++ ":" ++ fmtD02 (d / Minute) ++ ":" ++ fmtD02 (d / Second) ∧
    formatDuration Hour = "01:60:3600" := by
  refine ⟨?_, by decide⟩
  have hH : (Hour : Int) = 3600000000000 := by decide
  have hM : (Minute : Int) = 60000000000 := by decide
  have hS : (Second : Int) = 1000000000 := by decide
  rw [hH] at h1 h2
  have h1i : (3600000000000 : Int) ≤ d := h1
  obtain ⟨D, rfl⟩ : ∃ D : Nat, d = (D : Int) := ⟨d.toNat, (Int.toNat_of_nonneg (by omega)).symm⟩
  have hD1 : 3600000000000 ≤ D := by omega
  have hD2 : D < 4096 * 3600000000000 := by omega
  unfold formatDuration
  have c1 : ¬ ((D : Int) < 10 * Second) := by rw [hS]; omega
  have c2 : ¬ ((D : Int) < Minute) := by rw [hM]; omega
  have c3 : ¬ ((D : Int) < Hour) := by rw [hH]; omega
  rw [if_neg c1, if_neg c2, if_neg c3,
    Hours_floor D hD1 hD2, Minutes_floor D (by omega) (by omega),
    Seconds_floor D (by omega) (by omega), hH, hM, hS]
  rfl

theorem formatDuration_from_one_hour_witness :
    Hour ≤ 5025000000000 ∧ 5025000000000 < 4096 * Hour ∧
    formatDuration 5025000000000 = "01:83:5025" :=
  ⟨by decide, by decide,
    (formatDuration_from_one_hour 5025000000000 (by decide) (by decide)).1.trans (by decide)⟩

/-- C12. For `10s ≤ d < 60s`, `formatDuration d` is the whole seconds of `d` in decimal
followed by `s`, without decimal point; the boundary is strict at ten seconds:
10000 ms gives "10s", and every `e < 10s` is shown with one decimal digit. -/
theorem formatDuration_whole_seconds (d : Int) (h10 : 10 * Second ≤ d)
    (h60 : d < 60 * Second) :
    formatDuration d = toString (d / Second) ++ "s" ∧
    formatDuration (10000 * Millisecond) = "10s" ∧
    (∀ e : Duration, e < 10 * Second →
      ∃ (sign : String) (T : Nat), (sign = "" ∨ sign = "-") ∧ T % 10 < 10 ∧
        formatDuration e = sign ++ toString (T / 10) ++ "." ++ toString (T % 10) ++ "s") := by
  have hM : (Minute : Int) = 60000000000 := by decide
  have hS : (Second : Int) = 1000000000 := by decide
  refine ⟨?_, by decide, ?_⟩
  · rw [hS] at h10 h60
    have h10i : (10 * 1000000000 : Int) ≤ d := h10
    obtain ⟨D, rfl⟩ : ∃ D : Nat, d = (D : Int) := ⟨d.toNat, (Int.toNat_of_nonneg (by omega)).symm⟩
    unfold formatDuration
    have c1 : ¬ ((D : Int) < 10 * Second) := by rw [hS]; omega
    have c2 : (D : Int) < Minute := by rw [hM]; omega
    rw [if_neg c1, if_pos c2, Seconds_floor D (by omega) (by omega), hS]
    rfl
  · intro e he
    refine ⟨if (F64.div (F64.ofInt (Duration.Milliseconds e)) (F64.ofInt 1000)).num < 0
        then "-" else "",
      (F64.div (F64.ofInt (Duration.Milliseconds e)) (F64.ofInt 1000)).tenths, ?_,
      Nat.mod_lt _ (by decide), ?_⟩
    · split_ifs
      · exact Or.inr rfl
      · exact Or.inl rfl
    · unfold formatDuration
      rw [if_pos he]
      rfl

theorem formatDuration_whole_seconds_witness :
    10 * Second ≤ 45999999999 ∧ 45999999999 < 60 * Second ∧
    formatDuration 45999999999 = "45s" :=
  ⟨by decide, by decide,
    (formatDuration_whole_seconds 45999999999 (by decide) (by decide)).1.trans (by decide)⟩

/-! ## Colour sequences -/

/-- C13. For every integer colour code `c`, `getColorSequence c` is the reset sequence
`ESC[0m` when `c < 0` and `ESC[3`, the decimal digits of `c`, `m` otherwise: the codes
0 to 7 give `ESC[30m` to `ESC[37m`, and larger codes are passed through unchecked. -/
theorem getColorSequence_spec (c : Int) :
    getColorSequence c = (if c < 0 then "\x1b[0m" else "\x1b[3" ++ toString c ++ "m") ∧
    [0, 1, 2, 3, 4, 5, 6, 7].map getColorSequence
      = ["\x1b[30m", "\x1b[31m", "\x1b[32m", "\x1b[33m", "\x1b[34m", "\x1b[35m", "\x1b[36m",
          "\x1b[37m"] ∧
    getColorSequence (-1) = "\x1b[0m" ∧
    getColorSequence 8 = "\x1b[38m" ∧
    getColorSequence 142 = "\x1b[3142m" := by
  refine ⟨?_, by decide, by decide, by decide, by decide⟩
  unfold getColorSequence
  split_ifs <;> rfl

/-! ## The completion signal -/

/-- Calls other than completion leave the counter of the `WaitGroup` and the cap alone. -/
theorem opRun_done (op : Op) (node : EchelonNode) (hop : op.isCompletion = false) :
    (op.run node).node.done = node.done := by
  cases node with
  | mk d t c ds m s e cs =>
    cases op with
    | UpdateTitle text => rfl
    | SetDescription ds1 => rfl
    | ClearDescription => rfl
    | AppendDescription text =>
      simp only [Op.run, AppendDescription]
      split
      · split <;> rfl
      · rfl
    | AddNewChild child => rfl
    | Complete now => simp [Op.isCompletion] at hop
    | CompleteWithColor now col => simp [Op.isCompletion] at hop

theorem runOps_done (ops : List Op) :
    ∀ node : EchelonNode, (∀ op ∈ ops, op.isCompletion = false) →
      (runOps ops node).node.done = node.done := by
  induction ops with
  | nil => intro node _; rfl
  | cons op rest ih =>
    intro node hops
    have hstep := opRun_done op node (hops op (List.mem_cons_self _ _))
    unfold runOps
    cases hrun : op.run node with
    | ok node1 =>
      rw [hrun] at hstep
      exact (ih node1 (fun o ho => hops o (List.mem_cons_of_mem _ ho))).trans hstep
    | panicked p node1 =>
      rw [hrun] at hstep
      exact hstep

/-- What a completion call does, by the value of the counter. -/
theorem CompleteWithColor_outcome (now : Time) (col : Int) (node : EchelonNode) :
    (0 < node.done →
      (CompleteWithColor now col node).returned = true ∧
        (CompleteWithColor now col node).node.done = node.done - 1) ∧
    (node.done ≤ 0 → ∃ left : EchelonNode,
      CompleteWithColor now col node = .panicked .negativeWaitGroupCounter left) := by
  cases node with
  | mk d t c ds m s e cs =>
    simp only [EchelonNode.done, CompleteWithColor]
    constructor
    · intro h
      rw [if_neg (by omega)]
      exact ⟨rfl, rfl⟩
    · intro h
      rw [if_pos (by omega)]
      exact ⟨_, rfl⟩

/-- C14. With the completion signal as the integer counter of the `WaitGroup`, armed to 1
by `StartNewEchelonNode`: whatever other mutation calls are made before and in between,
the first `Complete`/`CompleteWithColor` returns and leaves the counter at 0, so that
`Wait` returns, and a second completion call on the same node panics on the negative
counter. -/
theorem double_completion (now : Time) (title : String) (before between : List Op)
    (t1 t2 : Time) (c1 c2 : Int)
    (hbefore : ∀ op ∈ before, op.isCompletion = false)
    (hbetween : ∀ op ∈ between, op.isCompletion = false) :
    (StartNewEchelonNode now title).done = 1 ∧
    WaitReturns (runOps before (StartNewEchelonNode now title)).node = false ∧
    (CompleteWithColor t1 c1 (runOps before (StartNewEchelonNode now title)).node).returned = true ∧
    (CompleteWithColor t1 c1 (runOps before (StartNewEchelonNode now title)).node).node.done = 0 ∧
    WaitReturns (CompleteWithColor t1 c1
      (runOps before (StartNewEchelonNode now title)).node).node = true ∧
    (∃ left : EchelonNode,
      CompleteWithColor t2 c2 (runOps between (CompleteWithColor t1 c1
          (runOps before (StartNewEchelonNode now title)).node).node).node
        = .panicked .negativeWaitGroupCounter left) ∧
    (∃ left : EchelonNode,
      Complete t2 (runOps between (Complete t1
          (runOps before (StartNewEchelonNode now title)).node).node).node
        = .panicked .negativeWaitGroupCounter left) := by
  have h1 : (runOps before (StartNewEchelonNode now title)).node.done = 1 :=
    runOps_done before _ hbefore
  have hfirst : ∀ c : Int,
      (CompleteWithColor t1 c (runOps before (StartNewEchelonNode now title)).node).returned = true ∧
      (CompleteWithColor t1 c (runOps before (StartNewEchelonNode now title)).node).node.done = 0 := by
    intro c
    have h := (CompleteWithColor_outcome t1 c _).1 (by rw [h1]; decide)
    rw [h1] at h
    exact h
  have hsecond : ∀ ca cb : Int, ∃ left : EchelonNode,
      CompleteWithColor t2 cb (runOps between (CompleteWithColor t1 ca
          (runOps before (StartNewEchelonNode now title)).node).node).node
        = .panicked .negativeWaitGroupCounter left := by
    intro ca cb
    apply (CompleteWithColor_outcome t2 cb _).2
    rw [runOps_done between _ hbetween, (hfirst ca).2]
  refine ⟨rfl, ?_, (hfirst c1).1, (hfirst c1).2, ?_, hsecond c1 c2, hsecond (-1) (-1)⟩
  · simp only [WaitReturns, h1]
    decide
  · simp only [WaitReturns, (hfirst c1).2]
    decide

theorem double_completion_witness :
    (CompleteWithColor (Time.Now 30 3) 2 (runOps [Op.AppendDescription "a"]
        (StartNewEchelonNode (Time.Now 10 1) "test")).node).node.done = 0 ∧
    (CompleteWithColor (Time.Now 50 5) 1 (runOps [Op.UpdateTitle "b"]
        (CompleteWithColor (Time.Now 30 3) 2 (runOps [Op.AppendDescription "a"]
          (StartNewEchelonNode (Time.Now 10 1) "test")).node).node).node).returned = false :=
  ⟨(double_completion (Time.Now 10 1) "test" [Op.AppendDescription "a"] [Op.UpdateTitle "b"]
      (Time.Now 30 3) (Time.Now 50 5) 2 1 (by decide) (by decide)).2.2.2.1,
    by decide⟩

/-! ## Frame properties -/

/-- What each method call does to the list of children. -/
theorem opRun_children (op : Op) (node : EchelonNode) :
    (∀ child, op = Op.AddNewChild child →
      (op.run node).node.children = node.children ++ [child]) ∧
    ((∀ child, op ≠ Op.AddNewChild child) → (op.run node).node.children = node.children) := by
  cases node with
  | mk d t c ds m s e cs =>
    cases op with
    | UpdateTitle text => exact ⟨fun _ h => (nomatch h), fun _ => rfl⟩
    | SetDescription ds1 => exact ⟨fun _ h => (nomatch h), fun _ => rfl⟩
    | ClearDescription => exact ⟨fun _ h => (nomatch h), fun _ => rfl⟩
    | AppendDescription text =>
      refine ⟨fun _ h => (nomatch h), fun _ => ?_⟩
      simp only [Op.run, AppendDescription]
      split
      · split <;> rfl
      · rfl
    | AddNewChild child =>
      refine ⟨fun c h => ?_, fun h => absurd rfl (h child)⟩
      cases h
      rfl
    | Complete now =>
      refine ⟨fun _ h => (nomatch h), fun _ => ?_⟩
      simp only [Op.run, Complete, CompleteWithColor]
      split <;> rfl
    | CompleteWithColor now col =>
      refine ⟨fun _ h => (nomatch h), fun _ => ?_⟩
      simp only [Op.run, CompleteWithColor]
      split <;> rfl

theorem opRun_children_grow (op : Op) (node : EchelonNode) :
    node.children <+: (op.run node).node.children := by
  by_cases h : ∃ child, op = Op.AddNewChild child
  · obtain ⟨child, hc⟩ := h
    rw [(opRun_children op node).1 child hc]
    exact List.prefix_append _ _
  · rw [(opRun_children op node).2 (fun child hc => h ⟨child, hc⟩)]

theorem runOps_children_grow (ops : List Op) :
    ∀ node : EchelonNode, node.children <+: (runOps ops node).node.children := by
  induction ops with
  | nil => intro node; exact List.prefix_refl _
  | cons op rest ih =>
    intro node
    have hstep := opRun_children_grow op node
    unfold runOps
    cases hrun : op.run node with
    | ok node1 =>
      rw [hrun] at hstep
      exact List.IsPrefix.trans hstep (ih node1)
    | panicked p node1 =>
      rw [hrun] at hstep
      exact hstep

/-- C15. For every node and every method call, the children before the call are a
prefix of the children after it; `AddNewChild c` makes the list `children ++ [c]`, every
other call leaves it as it was, and so no sequence of calls removes or reorders
children. The reading methods (`Draw`, `IsRunning`, `ExecutionDuration`) compute a
value from the node and have no successor state. -/
theorem children_append_only (op : Op) (node : EchelonNode) :
    node.children <+: (op.run node).node.children ∧
    (∀ child, op = Op.AddNewChild child →
      (op.run node).node.children = node.children ++ [child]) ∧
    ((∀ child, op ≠ Op.AddNewChild child) → (op.run node).node.children = node.children) ∧
    (∀ child, (AddNewChild child node).children = node.children ++ [child]) ∧
    (∀ ops : List Op, node.children <+: (runOps ops node).node.children) := by
  refine ⟨opRun_children_grow op node, (opRun_children op node).1, (opRun_children op node).2,
    ?_, fun ops => runOps_children_grow ops node⟩
  intro child
  cases node with
  | mk d t c ds m s e cs => rfl

/-- C16. For every node and every list of lines `L`, however long, `SetDescription L`
makes the description exactly `L`; `ClearDescription` is `SetDescription` of the empty
list; and `SetDescription L` followed by `ClearDescription` leaves an empty
description. -/
theorem SetDescription_spec (node : EchelonNode) (L : List String) :
    (SetDescription L node).description = L ∧
    (SetDescription L node).description.length = L.length ∧
    ClearDescription node = SetDescription [] node ∧
    (ClearDescription (SetDescription L node)).description = [] ∧
    (Op.run (Op.SetDescription L) node).returned = true ∧
    (runOps [Op.SetDescription L, Op.ClearDescription] node).node.description = [] := by
  cases node with
  | mk d t c ds m s e cs => exact ⟨rfl, rfl, rfl, rfl, rfl, rfl⟩

/-- Every method call leaves `startTime` and `maxDescriptionLines` alone. -/
theorem opRun_startTime_cap (op : Op) (node : EchelonNode) :
    (op.run node).node.startTime = node.startTime ∧
    (op.run node).node.maxDescriptionLines = node.maxDescriptionLines := by
  cases node with
  | mk d t c ds m s e cs =>
    cases op with
    | UpdateTitle text => exact ⟨rfl, rfl⟩
    | SetDescription ds1 => exact ⟨rfl, rfl⟩
    | ClearDescription => exact ⟨rfl, rfl⟩
    | AppendDescription text =>
      simp only [Op.run, AppendDescription]
      split
      · split <;> exact ⟨rfl, rfl⟩
      · exact ⟨rfl, rfl⟩
    | AddNewChild child => exact ⟨rfl, rfl⟩
    | Complete now =>
      simp only [Op.run, Complete, CompleteWithColor]
      split <;> exact ⟨rfl, rfl⟩
    | CompleteWithColor now col =>
      simp only [Op.run, CompleteWithColor]
      split <;> exact ⟨rfl, rfl⟩

theorem runOps_startTime_cap (ops : List Op) :
    ∀ node : EchelonNode, (runOps ops node).node.startTime = node.startTime ∧
      (runOps ops node).node.maxDescriptionLines = node.maxDescriptionLines := by
  induction ops with
  | nil => intro node; exact ⟨rfl, rfl⟩
  | cons op rest ih =>
    intro node
    have hstep := opRun_startTime_cap op node
    unfold runOps
    cases hrun : op.run node with
    | ok node1 =>
      rw [hrun] at hstep
      exact ⟨(ih node1).1.trans hstep.1, (ih node1).2.trans hstep.2⟩
    | panicked p node1 =>
      rw [hrun] at hstep
      exact hstep

/-- C17. `startTime` and `maxDescriptionLines` keep the values `StartNewEchelonNode` gave
them, the creation instant and 5: every mutating call (`UpdateTitle`, `SetDescription`,
`ClearDescription`, `AppendDescription`, `AddNewChild`, `Complete`,
`CompleteWithColor`), returning or panicking, leaves both as they were, so they hold
after every sequence of calls. `Draw`, `IsRunning` and `ExecutionDuration` assign no
field: they compute a value from the node and have no successor state. -/
theorem startTime_cap_unchanged (now : Time) (title : String) (op : Op) (node : EchelonNode)
    (ops : List Op) :
    (StartNewEchelonNode now title).startTime = now ∧
    (StartNewEchelonNode now title).maxDescriptionLines = 5 ∧
    (op.run node).node.startTime = node.startTime ∧
    (op.run node).node.maxDescriptionLines = node.maxDescriptionLines ∧
    (runOps ops node).node.startTime = node.startTime ∧
    (runOps ops node).node.maxDescriptionLines = node.maxDescriptionLines ∧
    (runOps ops (StartNewEchelonNode now title)).node.startTime = now ∧
    (runOps ops (StartNewEchelonNode now title)).node.maxDescriptionLines = 5 :=
  ⟨rfl, rfl, (opRun_startTime_cap op node).1, (opRun_startTime_cap op node).2,
    (runOps_startTime_cap ops node).1, (runOps_startTime_cap ops node).2,
    (runOps_startTime_cap ops _).1, (runOps_startTime_cap ops _).2⟩

/-- Calls other than completion leave `titleColor` alone. -/
theorem opRun_titleColor (op : Op) (node : EchelonNode) (hop : op.isCompletion = false) :
    (op.run node).node.titleColor = node.titleColor := by
  cases node with
  | mk d t c ds m s e cs =>
    cases op with
    | UpdateTitle text => rfl
    | SetDescription ds1 => rfl
    | ClearDescription => rfl
    | AppendDescription text =>
      simp only [Op.run, AppendDescription]
      split
      · split <;> rfl
      · rfl
    | AddNewChild child => rfl
    | Complete now => simp [Op.isCompletion] at hop
    | CompleteWithColor now col => simp [Op.isCompletion] at hop

/-- One method call keeps "a running node has no colour", when a completion call is
made at an instant that is not before `startTime`. -/
theorem opRun_running_color (op : Op) (node : EchelonNode)
    (hop : ∀ t, op.completionTime = some t → t.Before node.startTime = false)
    (hinv : IsRunning node = true → node.titleColor = -1) :
    IsRunning (op.run node).node = true → (op.run node).node.titleColor = -1 := by
  by_cases hc : op.isCompletion = false
  · have ht := opRun_times op node hc
    have hcol := opRun_titleColor op node hc
    intro hrun
    rw [hcol]
    apply hinv
    unfold IsRunning at hrun ⊢
    rw [← ht.1, ← ht.2]
    exact hrun
  · intro hrun
    exfalso
    cases node with
    | mk d t c ds m s e cs =>
      cases op with
      | UpdateTitle text => exact hc rfl
      | SetDescription ds1 => exact hc rfl
      | ClearDescription => exact hc rfl
      | AppendDescription text => exact hc rfl
      | AddNewChild child => exact hc rfl
      | Complete now =>
        have h := hop now rfl
        simp only [Op.run, Complete, CompleteWithColor_node, IsRunning, EchelonNode.endTime,
          EchelonNode.startTime] at hrun h
        rw [h] at hrun
        exact Bool.false_ne_true hrun
      | CompleteWithColor now col =>
        have h := hop now rfl
        simp only [Op.run, CompleteWithColor_node, IsRunning, EchelonNode.endTime,
          EchelonNode.startTime] at hrun h
        rw [h] at hrun
        exact Bool.false_ne_true hrun

theorem runOps_running_color (ops : List Op) :
    ∀ node : EchelonNode,
      (∀ op ∈ ops, ∀ t, op.completionTime = some t → t.Before node.startTime = false) →
      (IsRunning node = true → node.titleColor = -1) →
      IsRunning (runOps ops node).node = true → (runOps ops node).node.titleColor = -1 := by
  induction ops with
  | nil => intro node _ hinv; exact hinv
  | cons op rest ih =>
    intro node hops hinv
    have hstep := opRun_running_color op node (hops op (List.mem_cons_self _ _)) hinv
    have hstart := (opRun_startTime_cap op node).1
    unfold runOps
    cases hrun : op.run node with
    | ok node1 =>
      rw [hrun] at hstep hstart
      apply ih node1 _ hstep
      intro o ho t hot
      have hstart1 : node1.startTime = node.startTime := hstart
      rw [hstart1]
      exact hops o (List.mem_cons_of_mem _ ho) t hot
    | panicked p node1 =>
      rw [hrun] at hstep
      exact hstep

/-- C18. In every state reached from `StartNewEchelonNode` by mutation calls whose
completion calls are made at clock instants not before `startTime`: if `IsRunning()` is
true then `titleColor` is the sentinel -1, so the title of a running node is wrapped in
the reset sequence; a node created after the Unix epoch starts out running; and
`titleColor` changes only through `Complete`/`CompleteWithColor`. -/
theorem running_has_no_color (now : Time) (title : String) (ops : List Op)
    (hops : ∀ op ∈ ops, ∀ t, op.completionTime = some t → t.Before now = false) :
    (IsRunning (runOps ops (StartNewEchelonNode now title)).node = true →
      (runOps ops (StartNewEchelonNode now title)).node.titleColor = -1 ∧
      getColorSequence (runOps ops (StartNewEchelonNode now title)).node.titleColor
        = resetSequence) ∧
    (0 < now.wall → IsRunning (StartNewEchelonNode now title) = true) ∧
    (∀ (op : Op) (node : EchelonNode), op.isCompletion = false →
      (op.run node).node.titleColor = node.titleColor) := by
  refine ⟨?_, ?_, opRun_titleColor⟩
  · intro hrun
    have h := runOps_running_color ops (StartNewEchelonNode now title) hops (fun _ => rfl) hrun
    refine ⟨h, ?_⟩
    rw [h]
    rfl
  · intro hwall
    simp only [IsRunning, StartNewEchelonNode, EchelonNode.endTime, EchelonNode.startTime,
      Time.Before, Time.Unix]
    cases now.mono <;> simpa using hwall

theorem running_has_no_color_witness :
    IsRunning (runOps [Op.AppendDescription "a", Op.UpdateTitle "b"]
        (StartNewEchelonNode (Time.Now 1700000000000000000 1) "test")).node = true ∧
    (runOps [Op.AppendDescription "a", Op.UpdateTitle "b"]
        (StartNewEchelonNode (Time.Now 1700000000000000000 1) "test")).node.titleColor = -1 :=
  ⟨by decide, ((running_has_no_color (Time.Now 1700000000000000000 1) "test"
    [Op.AppendDescription "a", Op.UpdateTitle "b"] (by decide)).1 (by decide)).1⟩

/-! ## The rendered tree -/

/-- Induction over a tree of nodes: a property holds of every node if it holds of a
node whenever it holds of all its children. -/
theorem EchelonNode.induct (P : EchelonNode → Prop)
    (step : ∀ (d : Int) (t : String) (c : Int) (ds : List String) (m : Int) (s e : Time)
      (cs : List EchelonNode), (∀ child ∈ cs, P child) → P (.mk d t c ds m s e cs)) :
    ∀ node : EchelonNode, P node := by
  intro node
  refine EchelonNode.rec (motive_1 := P) (motive_2 := fun cs => ∀ child ∈ cs, P child)
    ?_ ?_ ?_ node
  · intro d t c ds m s e cs ih
    exact step d t c ds m s e cs ih
  · intro child h
    exact absurd h (List.not_mem_nil _)
  · intro head tail hhead htail child h
    rcases List.mem_cons.mp h with rfl | h
    · exact hhead
    · exact htail child h

theorem spaces_zero_append (line : String) : spaces 0 ++ line = line := by
  apply String.ext
  simp [spaces, String.data_append]

theorem indent_spaces (n : Nat) (line : String) :
    indent (spaces n ++ line) = spaces (n + 2) ++ line := by
  apply String.ext
  simp [indent, spaces, String.data_append, List.replicate_succ]

theorem indent_eq_spaces (line : String) : indent line = spaces 2 ++ line := by
  apply String.ext
  simp [indent, spaces, String.data_append, List.replicate_succ]

theorem countNodesList_eq (cs : List EchelonNode) :
    countNodesList cs = (cs.map countNodes).sum := by
  induction cs with
  | nil => rw [countNodesList]; rfl
  | cons child rest ih => rw [countNodesList, ih]; rfl

theorem leafLinesList_eq (cs : List EchelonNode) :
    leafLinesList cs = (cs.map leafLines).sum := by
  induction cs with
  | nil => rw [leafLinesList]; rfl
  | cons child rest ih => rw [leafLinesList, ih]; rfl

/-- The number of lines of the children loop, when each child's count is known. -/
theorem DrawChildren_length (clock : Nat → Time) (cs : List EchelonNode)
    (h : ∀ child ∈ cs, ∀ j : Nat,
      (Draw clock child j).1.length = countNodes child + leafLines child) :
    ∀ i : Nat, (DrawChildren clock cs i).1.length = countNodesList cs + leafLinesList cs := by
  induction cs with
  | nil =>
    intro i
    rw [DrawChildren_nil, countNodesList, leafLinesList]
    rfl
  | cons child rest ih =>
    intro i
    rw [DrawChildren_cons, countNodesList, leafLinesList]
    simp only [List.length_append, List.length_map]
    rw [h child (List.mem_cons_self _ _) i,
      ih (fun c hc => h c (List.mem_cons_of_mem _ hc)) (Draw clock child i).2]
    omega

/-- The number of lines of `Draw`: one per node, plus the description lines of leaves. -/
theorem Draw_length (clock : Nat → Time) (node : EchelonNode) :
    ∀ i : Nat, (Draw clock node i).1.length = countNodes node + leafLines node := by
  induction node using EchelonNode.induct with
  | step d t c ds m s e cs ih =>
    intro i
    cases cs with
    | nil =>
      rw [Draw_mk, countNodes, leafLines, if_neg (by decide), countNodesList]
      simp only [List.length_cons, List.length_map]
      omega
    | cons child rest =>
      rw [Draw_mk, countNodes, leafLines, if_pos (by simp)]
      simp only [List.length_cons]
      rw [DrawChildren_length clock (child :: rest) ih]
      omega

/-- The lines of a child reappear, indented, in the lines of the children loop. -/
theorem DrawChildren_mem (clock : Nat → Time) (cs : List EchelonNode) :
    ∀ (k : Nat) (child : EchelonNode) (i : Nat), cs[k]? = some child →
      ∃ j : Nat, ∀ line ∈ (Draw clock child j).1, indent line ∈ (DrawChildren clock cs i).1 := by
  induction cs with
  | nil => intro k child i h; simp at h
  | cons first rest ih =>
    intro k child i h
    rw [DrawChildren_cons]
    cases k with
    | zero =>
      simp only [List.getElem?_cons_zero, Option.some.injEq] at h
      subst h
      exact ⟨i, fun line hl => List.mem_append_left _ (List.mem_map_of_mem indent hl)⟩
    | succ k =>
      simp only [List.getElem?_cons_succ] at h
      obtain ⟨j, hj⟩ := ih k child (Draw clock first i).2 h
      exact ⟨j, fun line hl => List.mem_append_right _ (hj line hl)⟩

/-- The lines of a descendant at depth `k` reappear behind `2 * k` spaces. -/
theorem Draw_descendant (clock : Nat → Time) (path : List Nat) :
    ∀ (root desc : EchelonNode) (i : Nat), nodeAt root path = some desc →
      ∃ j : Nat, ∀ line ∈ (Draw clock desc j).1,
        spaces (2 * path.length) ++ line ∈ (Draw clock root i).1 := by
  induction path with
  | nil =>
    intro root desc i h
    simp only [nodeAt, Option.some.injEq] at h
    subst h
    refine ⟨i, fun line hl => ?_⟩
    rw [List.length_nil, Nat.mul_zero, spaces_zero_append]
    exact hl
  | cons k rest ih =>
    intro root desc i h
    cases root with
    | mk d t c ds m s e cs =>
      simp only [nodeAt, EchelonNode.children] at h
      cases hk : cs[k]? with
      | none => rw [hk] at h; simp at h
      | some child =>
        rw [hk] at h
        simp only at h
        obtain ⟨j1, hj1⟩ := DrawChildren_mem clock cs k child
          (tick (.mk d t c ds m s e cs) i) hk
        obtain ⟨j, hj⟩ := ih child desc j1 h
        refine ⟨j, fun line hl => ?_⟩
        have hpos : cs.length > 0 := by
          cases cs with
          | nil => simp at hk
          | cons _ _ => simp
        rw [Draw_mk, if_pos hpos]
        apply List.mem_cons_of_mem
        have h1 := hj1 _ (hj line hl)
        rw [indent_spaces] at h1
        have hlen : 2 * (k :: rest).length = 2 * rest.length + 2 := by
          rw [List.length_cons]; omega
        rw [hlen]
        exact h1

theorem replicate_append_two (n : Nat) (l : List Char) :
    List.replicate n ' ' ++ ' ' :: ' ' :: l = ' ' :: ' ' :: (List.replicate n ' ' ++ l) := by
  induction n with
  | zero => rfl
  | succ n ih => simp only [List.replicate_succ, List.cons_append, ih]

theorem spaces_indent (n : Nat) (line : String) :
    spaces n ++ indent line = spaces (n + 2) ++ line := by
  apply String.ext
  simp only [indent, spaces, String.data_append, List.replicate_succ, List.cons_append]
  exact replicate_append_two n line.data

theorem Draw_title_mem (clock : Nat → Time) (node : EchelonNode) (i : Nat) :
    fancyTitle (clock i) node ∈ (Draw clock node i).1 := by
  cases node with
  | mk d t c ds m s e cs =>
    rw [Draw_mk]
    split <;> exact List.mem_cons_self _ _

/-- C20. `Draw` is a total function on finite trees (structural recursion), and its
indentation compounds with depth: the title line of a descendant at depth `k` below the
root is in the output behind `2 * k` spaces, the description lines of a leaf at depth
`k` are in the output behind `2 * (k + 1)` spaces, and the number of lines is the
number of nodes of the tree plus the sum of the description lengths of its leaves. -/
theorem Draw_tree (clock : Nat → Time) (root : EchelonNode) (i : Nat) :
    (Draw clock root i).1.length = countNodes root + leafLines root ∧
    (∀ (path : List Nat) (desc : EchelonNode), nodeAt root path = some desc →
      ∃ j : Nat, spaces (2 * path.length) ++ fancyTitle (clock j) desc ∈ (Draw clock root i).1) ∧
    (∀ (path : List Nat) (desc : EchelonNode), nodeAt root path = some desc →
      desc.children = [] → ∀ line ∈ desc.description,
        spaces (2 * (path.length + 1)) ++ line ∈ (Draw clock root i).1) := by
  refine ⟨Draw_length clock root i, ?_, ?_⟩
  · intro path desc h
    obtain ⟨j, hj⟩ := Draw_descendant clock path root desc i h
    exact ⟨j, hj _ (Draw_title_mem clock desc j)⟩
  · intro path desc h hleaf line hline
    obtain ⟨j, hj⟩ := Draw_descendant clock path root desc i h
    have hmem : indent line ∈ (Draw clock desc j).1 := by
      cases desc with
      | mk d t c ds m s e cs =>
        simp only [EchelonNode.children] at hleaf
        subst hleaf
        rw [Draw_mk, if_neg (by decide)]
        exact List.mem_cons_of_mem _ (List.mem_map_of_mem indent hline)
    have h1 := hj _ hmem
    rw [spaces_indent] at h1
    have hlen : 2 * (path.length + 1) = 2 * path.length + 2 := by omega
    rw [hlen]
    exact h1

/-! ## Lock scopes -/

theorem heldAfter_append (held : List NodeId) (a b : List LockEvent) :
    heldAfter held (a ++ b) = heldAfter (heldAfter held a) b := by
  unfold heldAfter
  rw [List.foldl_append]

theorem heldStates_append (a b : List LockEvent) :
    ∀ held : List NodeId,
      heldStates held (a ++ b) = heldStates held a ++ heldStates (heldAfter held a) b := by
  induction a with
  | nil => intro held; rfl
  | cons e rest ih =>
    intro held
    show holdStep held e :: heldStates (holdStep held e) (rest ++ b)
      = holdStep held e :: heldStates (holdStep held e) rest
          ++ heldStates (heldAfter (holdStep held e) rest) b
    rw [ih, List.cons_append]

/-- The title helper takes and releases only the read lock of its own node. -/
theorem fancyTitleLocks_states (id : NodeId) (held : List NodeId) :
    heldAfter held (fancyTitleLocks id) = held ∧
    heldStates held (fancyTitleLocks id)
      = [id :: held, id :: id :: held, id :: held, id :: id :: held, id :: id :: id :: held,
          id :: id :: held, id :: held, held] := by
  simp [fancyTitleLocks, ExecutionDurationLocks, IsRunningLocks, heldAfter, heldStates, holdStep]

theorem onOnePath_replicate (n : Nat) (id : NodeId) : onOnePath (List.replicate n id) := by
  intro a ha b hb
  rw [List.eq_of_mem_replicate ha, List.eq_of_mem_replicate hb]
  exact Or.inl (List.prefix_refl _)

/-- During the loop over the children, started with the locks `held`, every lock taken
is released again, and what is held on top of `held` lies on one path through one
child. -/
theorem DrawChildrenLocks_states (cs : List EchelonNode)
    (ih : ∀ child ∈ cs, ∀ (id : NodeId) (held : List NodeId),
      heldAfter held (DrawLocks child id) = held ∧
      ∀ st ∈ heldStates held (DrawLocks child id),
        ∃ top, st = top ++ held ∧ (∀ a ∈ top, id <+: a) ∧ onOnePath top) :
    ∀ (id : NodeId) (k : Nat) (held : List NodeId),
      heldAfter held (DrawChildrenLocks cs id k) = held ∧
      ∀ st ∈ heldStates held (DrawChildrenLocks cs id k),
        ∃ top, st = top ++ held ∧ (∀ a ∈ top, id <+: a) ∧ onOnePath top := by
  induction cs with
  | nil =>
    intro id k held
    rw [DrawChildrenLocks]
    exact ⟨rfl, fun st h => absurd h (List.not_mem_nil _)⟩
  | cons child rest ihrest =>
    intro id k held
    have hchild := ih child (List.mem_cons_self _ _) (id ++ [k]) held
    have hrest := ihrest (fun c hc => ih c (List.mem_cons_of_mem _ hc)) id (k + 1) held
    rw [DrawChildrenLocks, heldAfter_append, heldStates_append, hchild.1]
    refine ⟨hrest.1, fun st hst => ?_⟩
    rcases List.mem_append.mp hst with h | h
    · obtain ⟨top, h1, h2, h3⟩ := hchild.2 st h
      exact ⟨top, h1, fun a ha => List.IsPrefix.trans (List.prefix_append _ _) (h2 a ha), h3⟩
    · exact hrest.2 st h

/-- During `Draw` on the node `id`, started with the locks `held`: every lock taken is
released at the return, and what is held on top of `held` are locks of nodes at or
below `id` lying on one path. -/
theorem DrawLocks_states (node : EchelonNode) :
    ∀ (id : NodeId) (held : List NodeId),
      heldAfter held (DrawLocks node id) = held ∧
      ∀ st ∈ heldStates held (DrawLocks node id),
        ∃ top, st = top ++ held ∧ (∀ a ∈ top, id <+: a) ∧ onOnePath top := by
  induction node using EchelonNode.induct with
  | step d t c ds m s e cs ih =>
    intro id held
    have hkids := DrawChildrenLocks_states cs ih id 0 (id :: held)
    have htitle := fancyTitleLocks_states id (id :: held)
    have hfirst : heldAfter held [LockEvent.RLock id] = id :: held := rfl
    have hlast : heldAfter (id :: held) [LockEvent.RUnlock id] = held := by
      simp [heldAfter, holdStep]
    rw [DrawLocks]
    simp only [heldAfter_append, heldStates_append, hfirst, htitle.1, htitle.2, hkids.1, hlast]
    refine ⟨trivial, fun st hst => ?_⟩
    simp only [List.mem_append] at hst
    rcases hst with ((h | h) | h) | h
    · simp only [heldStates, holdStep, List.mem_singleton] at h
      exact ⟨[id], by rw [h]; rfl, fun a ha => by rw [List.mem_singleton.mp ha],
        onOnePath_replicate 1 id⟩
    · simp only [List.mem_cons, List.mem_singleton, List.mem_nil_iff, or_false] at h
      rcases h with h | h | h | h | h | h | h | h
      · exact ⟨List.replicate 2 id, by rw [h]; rfl,
          fun a ha => by rw [List.eq_of_mem_replicate ha], onOnePath_replicate 2 id⟩
      · exact ⟨List.replicate 3 id, by rw [h]; rfl,
          fun a ha => by rw [List.eq_of_mem_replicate ha], onOnePath_replicate 3 id⟩
      · exact ⟨List.replicate 2 id, by rw [h]; rfl,
          fun a ha => by rw [List.eq_of_mem_replicate ha], onOnePath_replicate 2 id⟩
      · exact ⟨List.replicate 3 id, by rw [h]; rfl,
          fun a ha => by rw [List.eq_of_mem_replicate ha], onOnePath_replicate 3 id⟩
      · exact ⟨List.replicate 4 id, by rw [h]; rfl,
          fun a ha => by rw [List.eq_of_mem_replicate ha], onOnePath_replicate 4 id⟩
      · exact ⟨List.replicate 3 id, by rw [h]; rfl,
          fun a ha => by rw [List.eq_of_mem_replicate ha], onOnePath_replicate 3 id⟩
      · exact ⟨List.replicate 2 id, by rw [h]; rfl,
          fun a ha => by rw [List.eq_of_mem_replicate ha], onOnePath_replicate 2 id⟩
      · exact ⟨List.replicate 1 id, by rw [h]; rfl,
          fun a ha => by rw [List.eq_of_mem_replicate ha], onOnePath_replicate 1 id⟩
    · obtain ⟨top, h1, h2, h3⟩ := hkids.2 st h
      refine ⟨top ++ [id], by rw [h1]; simp, ?_, ?_⟩
      · intro a ha
        rcases List.mem_append.mp ha with ha | ha
        · exact h2 a ha
        · rw [List.mem_singleton.mp ha]
      · intro a ha b hb
        rcases List.mem_append.mp ha with ha | ha <;> rcases List.mem_append.mp hb with hb | hb
        · exact h3 a ha b hb
        · rw [List.mem_singleton.mp hb]
          exact Or.inr (h2 a ha)
        · rw [List.mem_singleton.mp ha]
          exact Or.inl (h2 b hb)
        · rw [List.mem_singleton.mp ha, List.mem_singleton.mp hb]
          exact Or.inl (List.prefix_refl _)
    · simp only [heldStates, holdStep, List.mem_singleton, List.erase_cons_head] at h
      exact ⟨[], by rw [h]; rfl, fun a ha => absurd ha (List.not_mem_nil _),
        onOnePath_replicate 0 id⟩

/-- In `Draw` every call on a mutex is on its read side. -/
theorem DrawLocks_read (node : EchelonNode) :
    ∀ (id : NodeId), ∀ e ∈ DrawLocks node id, e.isRead = true := by
  induction node using EchelonNode.induct with
  | step d t c ds m s e cs ih =>
    have hkids : ∀ (l : List EchelonNode), (∀ child ∈ l, ∀ (id : NodeId),
        ∀ ev ∈ DrawLocks child id, ev.isRead = true) →
        ∀ (id : NodeId) (k : Nat), ∀ ev ∈ DrawChildrenLocks l id k, ev.isRead = true := by
      intro l
      induction l with
      | nil =>
        intro _ id k ev hev
        rw [DrawChildrenLocks] at hev
        exact absurd hev (List.not_mem_nil _)
      | cons child rest ihrest =>
        intro hl id k ev hev
        rw [DrawChildrenLocks] at hev
        rcases List.mem_append.mp hev with h | h
        · exact hl child (List.mem_cons_self _ _) _ ev h
        · exact ihrest (fun c hc => hl c (List.mem_cons_of_mem _ hc)) id (k + 1) ev h
    intro id ev hev
    have htitle : (fancyTitleLocks id).all LockEvent.isRead = true := rfl
    rw [DrawLocks] at hev
    simp only [List.mem_append, List.mem_singleton] at hev
    rcases hev with ((h | h) | h) | h
    · rw [h]; rfl
    · exact List.all_eq_true.mp htitle ev h
    · exact hkids cs ih id 0 ev h
    · rw [h]; rfl

/-- When `Draw` enters its first child, the read lock of the node is still held. -/
theorem DrawLocks_first_child (node : EchelonNode) (id : NodeId)
    (h : node.children ≠ []) :
    [id ++ [0], id] ∈ heldStates [] (DrawLocks node id) := by
  cases node with
  | mk d t c ds m s e cs =>
    cases cs with
    | nil => exact absurd rfl h
    | cons child rest =>
      cases child with
      | mk d1 t1 c1 ds1 m1 s1 e1 cs1 =>
        have htitle := fancyTitleLocks_states id [id]
        have hfirst : heldAfter [] [LockEvent.RLock id] = [id] := rfl
        rw [DrawLocks, DrawChildrenLocks, DrawLocks]
        simp only [heldStates_append, heldAfter_append, hfirst, htitle.1, List.mem_append]
        refine Or.inl (Or.inr (Or.inl (Or.inl (Or.inl (Or.inl ?_)))))
        simp only [heldStates, holdStep, List.mem_singleton]

/-- C19, as stated, fails: during `Draw()` on a node with one child, at the moment the
child's `Draw()` takes the child's read lock the parent's read lock is still held (its
`RUnlock` is deferred to the return), so the locks of two nodes are held at once. -/
theorem Draw_holds_two_locks :
    (AddNewChild (StartNewEchelonNode (Time.Now 20 2) "kid")
        (StartNewEchelonNode (Time.Now 10 1) "top")).children.length = 1 ∧
    [[0], []] ∈ heldStates [] (DrawLocks
      (AddNewChild (StartNewEchelonNode (Time.Now 20 2) "kid")
        (StartNewEchelonNode (Time.Now 10 1) "top")) []) ∧
    holdsTwoNodes (DrawLocks
      (AddNewChild (StartNewEchelonNode (Time.Now 20 2) "kid")
        (StartNewEchelonNode (Time.Now 10 1) "top")) []) = true := by
  decide

/-- The lock calls of each child's `Draw` form a segment of the children loop, and the
segments before it give back every lock they took. -/
theorem DrawChildrenLocks_segment (cs : List EchelonNode) :
    ∀ (id : NodeId) (k0 k : Nat) (child : EchelonNode), cs[k]? = some child →
      ∃ pre post, DrawChildrenLocks cs id k0 = pre ++ DrawLocks child (id ++ [k0 + k]) ++ post ∧
        ∀ held : List NodeId, heldAfter held pre = held := by
  induction cs with
  | nil => intro id k0 k child h; simp at h
  | cons first rest ih =>
    intro id k0 k child h
    rw [DrawChildrenLocks]
    cases k with
    | zero =>
      simp only [List.getElem?_cons_zero, Option.some.injEq] at h
      subst h
      exact ⟨[], DrawChildrenLocks rest id (k0 + 1),
        by simp only [Nat.add_zero, List.nil_append], fun _ => rfl⟩
    | succ k =>
      simp only [List.getElem?_cons_succ] at h
      obtain ⟨pre, post, hseg, hbal⟩ := ih id (k0 + 1) k child h
      have hidx : k0 + 1 + k = k0 + (k + 1) := by omega
      refine ⟨DrawLocks first (id ++ [k0]) ++ pre, post, ?_, fun held => ?_⟩
      · rw [hseg, hidx]
        simp only [List.append_assoc]
      · rw [heldAfter_append, (DrawLocks_states first (id ++ [k0]) held).1, hbal]

/-- The lock calls of each child's `Draw` form a segment of the parent's `Draw`; the
segment starts with exactly the parent's read lock held, and that lock is held after
every call of the segment. -/
theorem DrawLocks_child_segment (node : EchelonNode) (id : NodeId) (k : Nat)
    (child : EchelonNode) (h : node.children[k]? = some child) :
    ∃ pre post, DrawLocks node id = pre ++ DrawLocks child (id ++ [k]) ++ post ∧
      heldAfter [] pre = [id] ∧
      (∀ st ∈ heldStates [id] (DrawLocks child (id ++ [k])), id ∈ st) ∧
      heldAfter [id] (DrawLocks child (id ++ [k])) = [id] := by
  cases node with
  | mk d t c ds m s e cs =>
    simp only [EchelonNode.children] at h
    obtain ⟨pre, post, hseg, hbal⟩ := DrawChildrenLocks_segment cs id 0 k child h
    rw [Nat.zero_add] at hseg
    refine ⟨[LockEvent.RLock id] ++ fancyTitleLocks id ++ pre, post ++ [LockEvent.RUnlock id],
      ?_, ?_, ?_, (DrawLocks_states child (id ++ [k]) [id]).1⟩
    · rw [DrawLocks, hseg]
      simp only [List.append_assoc]
    · rw [heldAfter_append, heldAfter_append, hbal]
      exact (fancyTitleLocks_states id [id]).1
    · intro st hst
      obtain ⟨top, h1, _, _⟩ := (DrawLocks_states child (id ++ [k]) [id]).2 st hst
      rw [h1]
      exact List.mem_append_right _ (List.mem_singleton_self id)

/-- From its first lock call up to its last one, the deferred `RUnlock`, `Draw` holds the
read lock of its own node. -/
theorem DrawLocks_own_lock (node : EchelonNode) (id : NodeId) :
    (∃ body, DrawLocks node id = LockEvent.RLock id :: body ++ [LockEvent.RUnlock id] ∧
      heldStates [] (DrawLocks node id)
        = heldStates [] (LockEvent.RLock id :: body) ++ [[]] ∧
      ∀ st ∈ heldStates [] (LockEvent.RLock id :: body), id ∈ st) := by
  cases node with
  | mk d t c ds m s e cs =>
    have htitle := fancyTitleLocks_states id [id]
    have hkids := DrawChildrenLocks_states cs
      (fun child _ => DrawLocks_states child) id 0 [id]
    have hfirst : heldAfter [] [LockEvent.RLock id] = [id] := rfl
    refine ⟨fancyTitleLocks id ++ DrawChildrenLocks cs id 0, ?_, ?_, ?_⟩
    · rw [DrawLocks]
      simp only [List.append_assoc, List.singleton_append, List.cons_append, List.nil_append]
    · have hshape : DrawLocks (.mk d t c ds m s e cs) id
          = ([LockEvent.RLock id] ++ (fancyTitleLocks id ++ DrawChildrenLocks cs id 0))
              ++ [LockEvent.RUnlock id] := by
        rw [DrawLocks]
        simp only [List.append_assoc]
      rw [hshape, heldStates_append, heldAfter_append, heldAfter_append, hfirst, htitle.1,
        hkids.1]
      simp [heldStates, holdStep]
    · intro st hst
      have hsplit : LockEvent.RLock id :: (fancyTitleLocks id ++ DrawChildrenLocks cs id 0)
          = [LockEvent.RLock id] ++ fancyTitleLocks id ++ DrawChildrenLocks cs id 0 := by
        simp only [List.append_assoc, List.singleton_append, List.cons_append, List.nil_append]
      rw [hsplit] at hst
      simp only [heldStates_append, heldAfter_append, hfirst, htitle.1, htitle.2,
        List.mem_append] at hst
      rcases hst with (h | h) | h
      · simp only [heldStates, holdStep, List.mem_singleton] at h
        rw [h]
        exact List.mem_singleton_self id
      · simp only [List.mem_cons, List.mem_singleton, List.mem_nil_iff, or_false] at h
        rcases h with h | h | h | h | h | h | h | h <;> (rw [h]; simp)
      · obtain ⟨top, h1, _, _⟩ := hkids.2 st h
        rw [h1]
        exact List.mem_append_right _ (List.mem_singleton_self id)

/-- At the moment the `Draw` of any child takes the child's read lock, the read lock of
the parent is held. -/
theorem DrawLocks_each_child (node : EchelonNode) (id : NodeId) (k : Nat)
    (child : EchelonNode) (h : node.children[k]? = some child) :
    [id ++ [k], id] ∈ heldStates [] (DrawLocks node id) := by
  obtain ⟨pre, post, hseg, hpre, _, _⟩ := DrawLocks_child_segment node id k child h
  have hin : [id ++ [k], id] ∈ heldStates [id] (DrawLocks child (id ++ [k])) := by
    cases child with
    | mk d t c ds m s e cs =>
      rw [DrawLocks]
      simp only [List.append_assoc, List.singleton_append, List.cons_append, List.nil_append,
        heldStates, holdStep]
      exact List.mem_cons_self _ _
  rw [hseg, heldStates_append, heldStates_append, hpre]
  exact List.mem_append_left _ (List.mem_append_right _ hin)

/-- C19, amended. The mutating methods, `IsRunning`, `ExecutionDuration`, the title
helper, and `Draw()` on a node without children never hold the locks of two nodes at
the same time. `Draw()` on a node with children keeps the node's own read lock until it
returns: its first lock call is the `RLock` of the node, its last one the deferred
`RUnlock`, and the lock is held after every call in between; the lock calls of each
child's `Draw()` are a segment of that sequence which starts with exactly the parent's
read lock held and keeps it held throughout. At every moment of `Draw()` the locks held
are read locks of nodes at or below the drawn node that lie on one path of the tree, and
all of them are released when `Draw()` returns. -/
theorem lock_scopes (node : EchelonNode) (id : NodeId) (op : Op) :
    holdsTwoNodes (op.locks id) = false ∧
    holdsTwoNodes (IsRunningLocks id) = false ∧
    holdsTwoNodes (ExecutionDurationLocks id) = false ∧
    holdsTwoNodes (fancyTitleLocks id) = false ∧
    (node.children = [] → holdsTwoNodes (DrawLocks node id) = false) ∧
    (node.children ≠ [] → [id ++ [0], id] ∈ heldStates [] (DrawLocks node id)) ∧
    (∃ body, DrawLocks node id = LockEvent.RLock id :: body ++ [LockEvent.RUnlock id] ∧
      heldStates [] (DrawLocks node id)
        = heldStates [] (LockEvent.RLock id :: body) ++ [[]] ∧
      ∀ st ∈ heldStates [] (LockEvent.RLock id :: body), id ∈ st) ∧
    (∀ (k : Nat) (child : EchelonNode), node.children[k]? = some child →
      ∃ pre post, DrawLocks node id = pre ++ DrawLocks child (id ++ [k]) ++ post ∧
        heldAfter [] pre = [id] ∧
        (∀ st ∈ heldStates [id] (DrawLocks child (id ++ [k])), id ∈ st) ∧
        heldAfter [id] (DrawLocks child (id ++ [k])) = [id]) ∧
    (∀ (k : Nat) (child : EchelonNode), node.children[k]? = some child →
      [id ++ [k], id] ∈ heldStates [] (DrawLocks node id)) ∧
    (∀ st ∈ heldStates [] (DrawLocks node id), onOnePath st ∧ ∀ a ∈ st, id <+: a) ∧
    (∀ e ∈ DrawLocks node id, e.isRead = true) ∧
    heldAfter [] (DrawLocks node id) = [] := by
  refine ⟨?_, ?_, ?_, ?_, ?_, DrawLocks_first_child node id, DrawLocks_own_lock node id,
    DrawLocks_child_segment node id, DrawLocks_each_child node id, ?_, DrawLocks_read node id,
    (DrawLocks_states node id []).1⟩
  · simp [holdsTwoNodes, Op.locks, heldStates, holdStep]
  · simp [holdsTwoNodes, IsRunningLocks, heldStates, holdStep]
  · simp [holdsTwoNodes, ExecutionDurationLocks, IsRunningLocks, heldStates, holdStep]
  · simp [holdsTwoNodes, fancyTitleLocks, ExecutionDurationLocks, IsRunningLocks, heldStates,
      holdStep]
  · intro hleaf
    cases node with
    | mk d t c ds m s e cs =>
      simp only [EchelonNode.children] at hleaf
      subst hleaf
      rw [DrawLocks, DrawChildrenLocks]
      simp [holdsTwoNodes, fancyTitleLocks, ExecutionDurationLocks, IsRunningLocks, heldStates,
        holdStep]
  · intro st hst
    obtain ⟨top, h1, h2, h3⟩ := (DrawLocks_states node id []).2 st hst
    rw [List.append_nil] at h1
    rw [h1]
    exact ⟨h3, h2⟩

end Echelon
